import Mathlib

/-!
Verification of the grammar classifier / parser generator in `src/project.py`.

The Python program reads a context-free grammar over single-character symbols,
checks productivity of the start symbol, augments the grammar, computes
FIRST/FOLLOW sets by fixed-point iteration, classifies the grammar as LL(1)
and/or SLR(1), builds the corresponding parse tables and simulates the two
parsers on test strings.

This file is a shallow embedding of that program: symbols are `String`s,
Python dicts become ordered association lists (Python dicts preserve insertion
order), Python sets become `Finset`s, and every `while changed:` loop becomes
`iterFuel` iteration of the loop's single pass with enough fuel to provably
reach the fixed point.  The two parser loops, which may genuinely diverge, are
modelled with explicit fuel and an explicit error outcome mirroring Python
exceptions (KeyError / IndexError).
-/

set_option maxRecDepth 8000

abbrev GSym := String

/-- A grammar: ordered map from nonterminal to its list of right-hand sides,
mirroring `grammar[A] = [prod, ...]` built by `convert_to_productions`. -/
abbrev Grammar := List (GSym × List (List GSym))

/-- Association-list lookup, the embedding of Python `m[k]` / `k in m`. -/
def alook {κ α : Type} [DecidableEq κ] (k : κ) : List (κ × α) → Option α
  | [] => none
  | p :: m => if p.1 = k then some p.2 else alook k m

/-- Lookup with default. -/
def alookD {κ α : Type} [DecidableEq κ] (m : List (κ × α)) (k : κ) (d : α) : α :=
  (alook k m).getD d

/-- Python dict assignment `m[k] = v`: overwrite in place if the key exists,
else append at the end (insertion order). -/
def dinsert {κ α : Type} [DecidableEq κ] (k : κ) (v : α) : List (κ × α) → List (κ × α)
  | [] => [(k, v)]
  | p :: m => if p.1 = k then (k, v) :: m else p :: dinsert k v m

/-- The keys of an association list, in order. -/
def keysOf {κ α : Type} (m : List (κ × α)) : List κ := m.map Prod.fst

/-- Fuel-bounded iteration of a pass function until it makes no change:
the embedding of the Python `while changed:` loops.  With enough fuel the
result is a genuine fixed point of `f` (proved below for each instance). -/
def iterFuel {α : Type} [DecidableEq α] (f : α → α) : Nat → α → α
  | 0, a => a
  | n + 1, a => if f a = a then a else iterFuel f n (f a)

/-- FIRST / FOLLOW tables: nonterminal ↦ set of symbols. -/
abbrev FMap := List (GSym × Finset GSym)

/-- `first_of_string(alpha, first)` from the source: scan `alpha` left to
right; a terminal (symbol not among the keys of `first`) is added and the
scan stops; a nonterminal contributes `FIRST(X) \ {e}` and the scan goes on
only if `e ∈ FIRST(X)`; if the whole sequence is scanned, `e` is added. -/
def first_of_string (alpha : List GSym) (first : FMap) : Finset GSym :=
  match alpha with
  | [] => {"e"}
  | X :: rest =>
    match alook X first with
    | none => {X}
    | some fX =>
      if "e" ∈ fX then (fX \ {"e"}) ∪ first_of_string rest first
      else fX \ {"e"}

/-- Union a set into an existing entry of an FMap (`first[A] |= s`). -/
def mupd (k : GSym) (s : Finset GSym) : FMap → FMap
  | [] => []
  | p :: m => (if p.1 = k then (p.1, p.2 ∪ s) else p) :: mupd k s m

/-- All right-hand-side symbols of the grammar, in order. -/
def rhsSyms (g : Grammar) : List GSym := (g.map (fun Ap => Ap.2.flatten)).flatten

/-- A deterministic enumeration of every symbol the pipeline can mention. -/
def symList (g : Grammar) : List GSym :=
  (keysOf g ++ rhsSyms g ++ ["$", "e"]).dedup

/-- One pass of `calculate_first_sets`: for each production either record the
epsilon marker (`prod == ['e']`) or union in `first_of_string(prod)`. -/
def first_pass (g : Grammar) (f0 : FMap) : FMap :=
  g.foldl (fun f Ap =>
    Ap.2.foldl (fun f prod =>
      if prod = ["e"] then mupd Ap.1 {"e"} f
      else mupd Ap.1 (first_of_string prod f) f) f) f0

/-- Upper bound for the symbols that can ever enter a FIRST set. -/
def firstUniv (g : Grammar) : Finset GSym := (rhsSyms g).toFinset ∪ {"e"}

def firstFuel (g : Grammar) : Nat := g.length * (firstUniv g).card + 1

def initFirst (g : Grammar) : FMap := g.map (fun Ap => (Ap.1, (∅ : Finset GSym)))

/-- `calculate_first_sets`: iterate `first_pass` to its fixed point. -/
def calculate_first_sets (g : Grammar) : FMap :=
  iterFuel (first_pass g) (firstFuel g) (initFirst g)

/-- The occurrences `(A, B, beta)` scanned by `calculate_follow_sets`:
for every production `A -> prod` and every position, `B` is the symbol at the
position and `beta` the rest of the production, in iteration order. -/
def occsOfProd (A : GSym) : List GSym → List (GSym × GSym × List GSym)
  | [] => []
  | B :: beta => (A, B, beta) :: occsOfProd A beta

def occs (g : Grammar) : List (GSym × GSym × List GSym) :=
  (g.map (fun Ap => (Ap.2.map (occsOfProd Ap.1)).flatten)).flatten

/-- One occurrence step of `calculate_follow_sets`: if `B` is a nonterminal,
add `FIRST(beta) \ {e}` to `FOLLOW(B)` and, when `beta` is empty or can vanish,
also the current `FOLLOW(A)`. -/
def follow_step (g : Grammar) (first : FMap) (f : FMap) (o : GSym × GSym × List GSym) : FMap :=
  if o.2.1 ∈ keysOf g then
    if o.2.2 ≠ [] then
      let fb := first_of_string o.2.2 first
      let f1 := mupd o.2.1 (fb \ {"e"}) f
      if "e" ∈ fb then mupd o.2.1 (alookD f1 o.1 ∅) f1 else f1
    else mupd o.2.1 (alookD f o.1 ∅) f
  else f

def follow_pass (g : Grammar) (first : FMap) (f : FMap) : FMap :=
  (occs g).foldl (follow_step g first) f

/-- Union of all the sets stored in an FMap. -/
def fmapUnion (m : FMap) : Finset GSym := m.foldr (fun p acc => p.2 ∪ acc) ∅

/-- Upper bound for the symbols that can ever enter a FOLLOW set. -/
def followUniv (g : Grammar) (first : FMap) : Finset GSym :=
  (rhsSyms g).toFinset ∪ fmapUnion first ∪ {"$"}

def followFuel (g : Grammar) (first : FMap) : Nat :=
  g.length * (followUniv g first).card + 1

def initFollow (g : Grammar) (start : GSym) : FMap :=
  g.map (fun Ap => (Ap.1, if Ap.1 = start then ({"$"} : Finset GSym) else ∅))

/-- `calculate_follow_sets`: seed `FOLLOW(start)` with `$` and iterate. -/
def calculate_follow_sets (g : Grammar) (first : FMap) (start : GSym) : FMap :=
  iterFuel (follow_pass g first) (followFuel g first) (initFollow g start)

/-- `check_ll1`: pairwise disjointness of the alternatives' FIRST sets, and
for a vanishing alternative, disjointness of its own FIRST with FOLLOW(A)
(the source tests `f_i & follow[A]`, not `f_j & follow[A]`). -/
def check_ll1 (g : Grammar) (first follow : FMap) : Bool :=
  g.all (fun Ap =>
    (List.range Ap.2.length).all (fun i =>
      let fi := first_of_string (Ap.2.getD i []) first
      ((List.range Ap.2.length).all (fun j =>
        if i < j then decide ((fi ∩ first_of_string (Ap.2.getD j []) first) = ∅)
        else true)) &&
      (if "e" ∈ fi then decide ((fi ∩ alookD follow Ap.1 ∅) = ∅) else true)))

/-- The LL(1) table: nonterminal ↦ (lookahead ↦ production). -/
abbrev LLTable := List (GSym × List (GSym × List GSym))

def llIns (A a : GSym) (prod : List GSym) (t : LLTable) : LLTable :=
  t.map (fun row => if row.1 = A then (row.1, dinsert a prod row.2) else row)

/-- `build_ll1_table`: `table[A][a] = prod` for `a ∈ FIRST(prod) \ {e}`, and
for every `b ∈ FOLLOW(A)` when `e ∈ FIRST(prod)`; later assignments
overwrite earlier ones. -/
def build_ll1_table (g : Grammar) (first follow : FMap) : LLTable :=
  g.foldl (fun t Ap =>
    Ap.2.foldl (fun t prod =>
      let fp := first_of_string prod first
      let t1 := ((symList g).filter (· ∈ (fp \ {"e"}))).foldl
        (fun t a => llIns Ap.1 a prod t) t
      if "e" ∈ fp then
        ((symList g).filter (· ∈ alookD follow Ap.1 ∅)).foldl
          (fun t b => llIns Ap.1 b prod t) t1
      else t1) t)
    (g.map (fun Ap => (Ap.1, ([] : List (GSym × List GSym)))))

/-- Outcome of a fuel-bounded parser run: accepted, rejected, a Python
exception (`fail`), or fuel exhausted (`out`). -/
inductive PRes where
  | acc : PRes
  | rej : PRes
  | fail : PRes
  | out : PRes
deriving DecidableEq, Repr

/-- The `predictive_parse` loop.  The stack top is the list head (the source
pops index 0 and inserts at index 0). -/
def predictive_run (t : LLTable) (inp : List GSym) : Nat → List GSym → Nat → PRes
  | 0, _, _ => .out
  | n + 1, stack, ip =>
    match stack with
    | [] => .rej
    | top :: rest =>
      match inp.get? ip with
      | none => .fail
      | some cur =>
        if top = "$" ∧ cur = "$" then .acc
        else if top = cur then predictive_run t inp n rest (ip + 1)
        else
          match alook top t with
          | none => .rej
          | some row =>
            match alook cur row with
            | none => .rej
            | some prod =>
              if prod = ["e"] then predictive_run t inp n rest ip
              else predictive_run t inp n (prod ++ rest) ip

/-- `list(s)`: a Python string as its list of one-character symbols. -/
def strSyms (s : String) : List GSym := s.data.map Char.toString

/-- `predictive_parse(table, s, start)` with explicit fuel. -/
def predictive_parse (t : LLTable) (s : String) (start : GSym) (fuel : Nat) : PRes :=
  predictive_run t (strSyms s ++ ["$"]) fuel [start, "$"] 0

/-- An LR(0) item `(A, prod, pos)`. -/
abbrev Item := GSym × List GSym × Nat

/-- The items contributed by one closure expansion: if the dot of `it` is
before a nonterminal `X`, all items `(X, beta, 0)`. -/
def item_expand (g : Grammar) (it : Item) : Finset Item :=
  match it.2.1.get? it.2.2 with
  | none => ∅
  | some X =>
    match alook X g with
    | none => ∅
    | some alts => (alts.map (fun b => (X, b, 0))).toFinset

def closure_pass (g : Grammar) (c : Finset Item) : Finset Item :=
  c ∪ c.biUnion (item_expand g)

/-- Total number of productions of the grammar. -/
def prodCount (g : Grammar) : Nat := (g.map (fun Ap => Ap.2.length)).sum

/-- `calculate_closure`: iterate the closure pass to its fixed point. -/
def calculate_closure (g : Grammar) (s : Finset Item) : Finset Item :=
  iterFuel (closure_pass g) (prodCount g + 1) s

/-- Every item of the grammar `(A, prod, pos)` with `pos ≤ |prod|`, in a fixed
order; used as iteration order over item sets (Python iterates hash sets). -/
def items_list (g : Grammar) : List Item :=
  (g.map (fun Ap =>
    (Ap.2.map (fun prod =>
      (List.range (prod.length + 1)).map (fun p => (Ap.1, prod, p)))).flatten)).flatten

/-- The items of state `I` in deterministic order. -/
def state_items (g : Grammar) (I : Finset Item) : List Item :=
  (items_list g).dedup.filter (· ∈ I)

/-- The symbols appearing right after a dot in state `I`. -/
def after_dot (g : Grammar) (I : Finset Item) : List GSym :=
  ((state_items g I).filterMap (fun it => it.2.1.get? it.2.2)).dedup

/-- The moved item when the dot of `it` is before `X`. -/
def item_moved (X : GSym) (it : Item) : Finset Item :=
  if it.2.1.get? it.2.2 = some X then {(it.1, it.2.1, it.2.2 + 1)} else ∅

/-- `goto(I, X)`: closure of the moved items. -/
def goto_set (g : Grammar) (I : Finset Item) (X : GSym) : Finset Item :=
  calculate_closure g (I.biUnion (item_moved X))

/-- First index of `x` in a list (the content-keyed `idx_map`). -/
def idxOf {α : Type} [DecidableEq α] (x : α) : List α → Option Nat
  | [] => none
  | y :: l => if y = x then some 0 else (idxOf x l).map (· + 1)

/-- The canonical-collection state: the ordered state list and the
transition map `(state index, symbol) ↦ state index`. -/
abbrev CState := List (Finset Item) × List ((Nat × GSym) × Nat)

instance : DecidableEq CState := instDecidableEqProd

/-- One pass of `calculate_canonical_lr0`: for every state of the snapshot
and every after-dot symbol, compute `goto`, merge it with an existing state
of equal content or append it, and record the transition. -/
def canonical_pass (g : Grammar) (st : CState) : CState :=
  (List.range st.1.length).foldl (fun acc i =>
    (after_dot g (st.1.getD i ∅)).foldl (fun acc X =>
      let J := goto_set g (st.1.getD i ∅) X
      match idxOf J acc.1 with
      | some j => (acc.1, dinsert (i, X) j acc.2)
      | none => (acc.1 ++ [J], dinsert (i, X) acc.1.length acc.2)) acc) st

def item_univ_card (g : Grammar) : Nat := (items_list g).dedup.length

def canonFuel (g : Grammar) : Nat :=
  2 ^ item_univ_card g * ((symList g).length + 1) + 2

/-- State 0: closure of `(start, grammar[start][0], 0)`. -/
def init_canon (g : Grammar) (start : GSym) : CState :=
  ([calculate_closure g {(start, (alookD g start []).headD [], 0)}], [])

/-- `calculate_canonical_lr0`: iterate until no state or transition is new. -/
def calculate_canonical_lr0 (g : Grammar) (start : GSym) : CState :=
  iterFuel (canonical_pass g) (canonFuel g) (init_canon g start)

/-- An SLR action. -/
inductive SAct where
  | shift : Nat → SAct
  | reduce : Nat → SAct
  | accept : SAct
deriving DecidableEq, Repr

/-- The SLR table: one `symbol ↦ action` dict per state. -/
abbrev SLRTable := List (List (GSym × SAct))

/-- The numbered production list (`prods` in `construct_slr_table`). -/
def prodList (g : Grammar) : List (GSym × List GSym) :=
  (g.map (fun Ap => Ap.2.map (fun b => (Ap.1, b)))).flatten

def tblIns (i : Nat) (a : GSym) (act : SAct) (t : SLRTable) : SLRTable :=
  t.set i (dinsert a act (t.getD i []))

/-- The table contribution of one item of state `i`: a shift for a symbol
after the dot having a transition, `accept` on `$` for the completed start
production, reduces on FOLLOW(A) for any other completed item.  The
production index lookup (`pidx` in the source) can fail, modelling KeyError. -/
def slr_item_step (g : Grammar) (trans : List ((Nat × GSym) × Nat)) (follow : FMap)
    (start : GSym) (i : Nat) (t : SLRTable) (it : Item) : Option SLRTable :=
  match it.2.1.get? it.2.2 with
  | some a =>
    match alook (i, a) trans with
    | some j => some (tblIns i a (.shift j) t)
    | none => some t
  | none =>
    if it.1 = start then some (tblIns i "$" .accept t)
    else
      match idxOf (it.1, it.2.1) (prodList g) with
      | none => none
      | some r =>
        some (((symList g).filter (· ∈ alookD follow it.1 ∅)).foldl
          (fun t a => tblIns i a (.reduce r) t) t)

/-- `construct_slr_table`: fold the item contributions over all states; later
assignments to an occupied `(state, symbol)` cell silently overwrite. -/
def construct_slr_table (g : Grammar) (states : List (Finset Item))
    (trans : List ((Nat × GSym) × Nat)) (follow : FMap) (start : GSym) :
    Option (SLRTable × List (GSym × List GSym)) :=
  ((List.range states.length).foldlM (fun t i =>
    (state_items g (states.getD i ∅)).foldlM
      (fun t it => slr_item_step g trans follow start i t it) t)
    ((List.replicate states.length []) : SLRTable)).map
    (fun t => (t, prodList g))

/-- The `lr_parse` loop.  The state stack top is the list head; every Python
exception (list index out of range, KeyError, indexing `('accept',)[1]`)
is the `fail` outcome.  A reduce pops `|beta|` states and pushes the second
component of the table entry at `(new top, A)` whatever its kind, exactly as
`stack.append(slr_table[t][A][1])` does. -/
def lr_run (t : SLRTable) (prods : List (GSym × List GSym)) (inp : List GSym) :
    Nat → List Nat → Nat → PRes
  | 0, _, _ => .out
  | n + 1, stack, ip =>
    match t.get? (stack.headD 0) with
    | none => .fail
    | some row =>
      match inp.get? ip with
      | none => .fail
      | some a =>
        match alook a row with
        | none => .rej
        | some act =>
          match act with
          | .shift j => lr_run t prods inp n (j :: stack) (ip + 1)
          | .accept => .acc
          | .reduce r =>
            match prods.get? r with
            | none => .fail
            | some Ab =>
              match stack.drop Ab.2.length with
              | [] => .fail
              | tstate :: rest2 =>
                match t.get? tstate with
                | none => .fail
                | some trow =>
                  match alook Ab.1 trow with
                  | none => .fail
                  | some (.shift j) => lr_run t prods inp n (j :: tstate :: rest2) ip
                  | some (.reduce r2) => lr_run t prods inp n (r2 :: tstate :: rest2) ip
                  | some .accept => .fail

/-- `lr_parse(s, slr_table, productions)` with explicit fuel. -/
def lr_parse (s : String) (t : SLRTable) (prods : List (GSym × List GSym))
    (fuel : Nat) : PRes :=
  lr_run t prods (strSyms s ++ ["$"]) fuel [0] 0

/-- Base case of the productivity check in `main`: nonterminals with a
production of terminals / epsilon markers only. -/
def prodv_base (g : Grammar) : Finset GSym :=
  g.foldl (fun s Ap =>
    if Ap.2.any (fun prod =>
        prod.all (fun sym => decide (sym ∉ keysOf g) || decide (sym = "e")))
    then insert Ap.1 s else s) ∅

def prodv_pass (g : Grammar) (s : Finset GSym) : Finset GSym :=
  g.foldl (fun s Ap =>
    if Ap.1 ∈ s then s
    else if Ap.2.any (fun prod =>
        prod.all (fun sym => decide (sym ∉ keysOf g) || decide (sym ∈ s)))
    then insert Ap.1 s else s) s

/-- `productive_nts` from `main`. -/
def productive_nts (g : Grammar) : Finset GSym :=
  iterFuel (prodv_pass g) (g.length + 1) (prodv_base g)

/-- `start = next(iter(grammar))`. -/
def startSym (g : Grammar) : GSym := (g.headD ("", [])).1

/-- `aug = start + "'"` (the apostrophe written as an escape). -/
def augName (g : Grammar) : GSym := startSym g ++ "\x27"

/-- `grammar = {aug: [[start]], **grammar}`. -/
def augGrammar (g : Grammar) : Grammar := (augName g, [[startSym g]]) :: g

/-- The classification outcome of `main` up to the parsing loops. -/
structure ClassifyResult where
  isLL1 : Bool
  isSLR1 : Bool
  llTable : Option LLTable
  slr : Option (SLRTable × List (GSym × List GSym))

/-- The pipeline of `main`: productivity check, augmentation, FIRST, FOLLOW,
the LL(1) check (and table when it succeeds), the LR(0) automaton and the
SLR table.  `isSLR1` is `slr_res is not None`, exactly as in the source. -/
def classify (g : Grammar) : ClassifyResult :=
  if startSym g ∈ productive_nts g then
    let G := augGrammar g
    let aug := augName g
    let first := calculate_first_sets G
    let follow := calculate_follow_sets G first aug
    let ll := check_ll1 G first follow
    let ct := calculate_canonical_lr0 G aug
    let slr := construct_slr_table G ct.1 ct.2 follow aug
    ⟨ll, slr.isSome, if ll then some (build_ll1_table G first follow) else none, slr⟩
  else ⟨false, false, none, none⟩

/-! ### Basic lemmas about association lists, `mupd`, `dinsert`, `idxOf` -/

theorem alook_eq_none_iff {κ α : Type} [DecidableEq κ] (k : κ) :
    ∀ m : List (κ × α), alook k m = none ↔ k ∉ keysOf m
  | [] => by simp [alook, keysOf]
  | p :: m => by
    by_cases h : p.1 = k
    · simp [alook, h, keysOf]
    · simp only [alook, if_neg h, keysOf, List.map_cons, List.mem_cons]
      rw [alook_eq_none_iff k m]
      constructor
      · rintro h2 (h3 | h3)
        · exact h (h3.symm)
        · exact h2 h3
      · intro h2 h3
        exact h2 (Or.inr h3)

theorem alook_isSome_iff {κ α : Type} [DecidableEq κ] (k : κ) (m : List (κ × α)) :
    (alook k m).isSome ↔ k ∈ keysOf m := by
  rcases h : alook k m with _ | v
  · rw [alook_eq_none_iff] at h; simp [h]
  · simp only [Option.isSome_some, true_iff]
    by_contra hk
    rw [← alook_eq_none_iff (α := α) k m] at hk
    rw [h] at hk
    exact Option.noConfusion hk

theorem alook_mem {κ α : Type} [DecidableEq κ] {k : κ} {v : α} :
    ∀ {m : List (κ × α)}, alook k m = some v → (k, v) ∈ m
  | [], h => by simp [alook] at h
  | p :: m, h => by
    by_cases hp : p.1 = k
    · simp only [alook, if_pos hp] at h
      cases h
      subst hp
      exact List.mem_cons_self _ _
    · simp only [alook, if_neg hp] at h
      exact List.mem_cons_of_mem _ (alook_mem h)

theorem alook_mupd_self (k : GSym) (s : Finset GSym) :
    ∀ m : FMap, alook k (mupd k s m) = (alook k m).map (· ∪ s)
  | [] => rfl
  | p :: m => by
    have ih := alook_mupd_self k s m
    by_cases hp : p.1 = k <;> simp_all [mupd, alook]

theorem alook_mupd_ne (k k' : GSym) (s : Finset GSym) (h : k' ≠ k) :
    ∀ m : FMap, alook k' (mupd k s m) = alook k' m
  | [] => rfl
  | p :: m => by
    have ih := alook_mupd_ne k k' s h m
    by_cases hp : p.1 = k <;> by_cases hp' : p.1 = k' <;>
      simp_all [mupd, alook]

theorem keysOf_mupd (k : GSym) (s : Finset GSym) :
    ∀ m : FMap, keysOf (mupd k s m) = keysOf m
  | [] => rfl
  | p :: m => by
    have ih := keysOf_mupd k s m
    by_cases hp : p.1 = k <;> simp_all [mupd, keysOf]

theorem alook_dinsert_self {κ α : Type} [DecidableEq κ] (k : κ) (v : α) :
    ∀ m : List (κ × α), alook k (dinsert k v m) = some v
  | [] => by simp [dinsert, alook]
  | p :: m => by
    have ih := alook_dinsert_self k v m
    by_cases hp : p.1 = k <;> simp_all [dinsert, alook]

theorem alook_dinsert_ne {κ α : Type} [DecidableEq κ] (k k' : κ) (v : α) (h : k' ≠ k) :
    ∀ m : List (κ × α), alook k' (dinsert k v m) = alook k' m
  | [] => by simp [dinsert, alook, Ne.symm h]
  | p :: m => by
    have ih := alook_dinsert_ne k k' v h m
    by_cases hp : p.1 = k <;> by_cases hp' : p.1 = k' <;>
      simp_all [dinsert, alook]

theorem dinsert_eq_self {κ α : Type} [DecidableEq κ] {k : κ} {v : α} :
    ∀ {m : List (κ × α)}, alook k m = some v → dinsert k v m = m
  | [], h => by simp [alook] at h
  | p :: m, h => by
    by_cases hp : p.1 = k
    · simp only [alook, if_pos hp] at h
      cases h
      subst hp
      simp [dinsert]
    · simp only [alook, if_neg hp] at h
      have ih := dinsert_eq_self (m := m) h
      simp [dinsert, hp, ih]

theorem keysOf_dinsert_mem {κ α : Type} [DecidableEq κ] {k : κ} (v : α) :
    ∀ {m : List (κ × α)}, k ∈ keysOf m → keysOf (dinsert k v m) = keysOf m
  | [], h => by simp [keysOf] at h
  | p :: m, h => by
    by_cases hp : p.1 = k
    · simp [dinsert, keysOf, hp]
    · simp only [keysOf, List.map_cons, List.mem_cons] at h
      rcases h with h | h
      · exact absurd h.symm hp
      · have ih := keysOf_dinsert_mem v (m := m) (by simpa [keysOf] using h)
        simp_all [dinsert, keysOf]

theorem keysOf_dinsert_not_mem {κ α : Type} [DecidableEq κ] {k : κ} (v : α) :
    ∀ {m : List (κ × α)}, k ∉ keysOf m → keysOf (dinsert k v m) = keysOf m ++ [k]
  | [], _ => rfl
  | p :: m, h => by
    simp only [keysOf, List.map_cons, List.mem_cons] at h
    push_neg at h
    have ih := keysOf_dinsert_not_mem v (m := m) (by simpa [keysOf] using h.2)
    simp_all [dinsert, keysOf, Ne.symm h.1]

theorem idxOf_get? {α : Type} [DecidableEq α] {x : α} :
    ∀ {l : List α} {i : Nat}, idxOf x l = some i → l.get? i = some x
  | [], i, h => by simp [idxOf] at h
  | y :: l, i, h => by
    by_cases hy : y = x
    · simp only [idxOf, if_pos hy] at h
      cases h
      simp [hy]
    · simp only [idxOf, if_neg hy] at h
      rcases Option.map_eq_some'.1 h with ⟨j, hj, rfl⟩
      simpa using idxOf_get? hj

theorem idxOf_lt_length {α : Type} [DecidableEq α] {x : α} {l : List α} {i : Nat}
    (h : idxOf x l = some i) : i < l.length := by
  rcases List.get?_eq_some.1 (idxOf_get? h) with ⟨hlt, _⟩
  exact hlt

theorem idxOf_eq_none_iff {α : Type} [DecidableEq α] (x : α) :
    ∀ l : List α, idxOf x l = none ↔ x ∉ l
  | [] => by simp [idxOf]
  | y :: l => by
    by_cases hy : y = x
    · simp [idxOf, hy]
    · simp [idxOf, hy, idxOf_eq_none_iff x l, Ne.symm hy]

theorem idxOf_append_of_some {α : Type} [DecidableEq α] {x : α} {i : Nat} :
    ∀ {l : List α} (l' : List α), idxOf x l = some i → idxOf x (l ++ l') = some i
  | [], _, h => by simp [idxOf] at h
  | y :: l, l', h => by
    by_cases hy : y = x
    · simp only [idxOf, if_pos hy] at h ⊢
      exact h
    · simp only [List.cons_append, idxOf, if_neg hy] at h ⊢
      rcases Option.map_eq_some'.1 h with ⟨j, hj, rfl⟩
      rw [List.append_eq, idxOf_append_of_some l' hj]
      rfl

theorem idxOf_append_self {α : Type} [DecidableEq α] {x : α} :
    ∀ {l : List α}, x ∉ l → idxOf x (l ++ [x]) = some l.length
  | [], _ => by simp [idxOf]
  | y :: l, h => by
    simp only [List.mem_cons] at h
    push_neg at h
    simp only [List.cons_append, idxOf, if_neg (Ne.symm h.1 : ¬ y = x)]
    rw [List.append_eq, idxOf_append_self h.2]
    rfl

/-! ### Fuel iteration lemmas -/

theorem iterFuel_inv {α : Type} [DecidableEq α] (f : α → α) (P : α → Prop)
    (hP : ∀ x, P x → P (f x)) :
    ∀ (n : Nat) (a : α), P a → P (iterFuel f n a)
  | 0, _, h => h
  | n + 1, a, h => by
    unfold iterFuel
    split
    · exact h
    · exact iterFuel_inv f P hP n (f a) (hP a h)

theorem iterFuel_chain {α : Type} [DecidableEq α] (f : α → α) (R : α → α → Prop)
    (hrefl : ∀ x, R x x) (htrans : ∀ x y z, R x y → R y z → R x z)
    (hstep : ∀ x, R x (f x)) :
    ∀ (n : Nat) (a : α), R a (iterFuel f n a)
  | 0, a => hrefl a
  | n + 1, a => by
    unfold iterFuel
    split
    · exact hrefl a
    · exact htrans _ _ _ (hstep a) (iterFuel_chain f R hrefl htrans hstep n (f a))

theorem iterFuel_fix {α : Type} [DecidableEq α] (f : α → α) (size : α → Nat) (bound : Nat)
    (P : α → Prop) (hP : ∀ x, P x → P (f x))
    (hgrow : ∀ x, P x → f x ≠ x → size x < size (f x))
    (hbound : ∀ x, P x → size (f x) ≤ bound) :
    ∀ (n : Nat) (a : α), P a → bound < size a + n →
      f (iterFuel f n a) = iterFuel f n a
  | 0, a, hPa, hn => by
    simp only [iterFuel]
    by_contra hne
    have h1 := hgrow a hPa hne
    have h2 := hbound a hPa
    omega
  | n + 1, a, hPa, hn => by
    unfold iterFuel
    split
    · assumption
    · refine iterFuel_fix f size bound P hP hgrow hbound n (f a) (hP a hPa) ?_
      have h1 := hgrow a hPa (by assumption)
      omega

/-! ### Concrete grammars used by the claims -/

/-- Scenario grammar `S -> AB`, `A -> a`, `B -> b` (claim C5). -/
def gC5 : Grammar := [("S", [["A", "B"]]), ("A", [["a"]]), ("B", [["b"]])]

/-- Ambiguous grammar `S -> SS | a` (claim C1). -/
def gC1 : Grammar := [("S", [["S", "S"], ["a"]])]

/-- Grammar with an epsilon production `S -> e` (claim C7). -/
def gC7 : Grammar := [("S", [["e"]])]

/-- Grammar `S -> aB`, `B -> b | e` (claim C9). -/
def gC9 : Grammar := [("S", [["a", "B"]]), ("B", [["b"], ["e"]])]

/-- Grammar `S -> Ba`, `B -> e | Sb` (claim C8). -/
def gC8 : Grammar := [("S", [["B", "a"]]), ("B", [["e"], ["S", "b"]])]

/-- Grammar `S -> cAd | fBg`, `A -> B`, `B -> A | b` (claim C10). -/
def gC10 : Grammar :=
  [("S", [["c", "A", "d"], ["f", "B", "g"]]), ("A", [["B"]]), ("B", [["A"], ["b"]])]

/-! ### C3: characterization of `first_of_string` -/

theorem first_of_string_eps_iff (first : FMap) :
    ∀ alpha : List GSym, (∀ X ∈ alpha, alook X first = none → X ≠ "e") →
      ("e" ∈ first_of_string alpha first ↔
        ∀ X ∈ alpha, ∃ fX, alook X first = some fX ∧ "e" ∈ fX)
  | [], _ => by simp [first_of_string]
  | X :: rest, h => by
    rcases hX : alook X first with _ | fX
    · have heq : first_of_string (X :: rest) first = {X} := by
        simp [first_of_string, hX]
      rw [heq]
      have hne : X ≠ "e" := h X (List.mem_cons_self _ _) hX
      constructor
      · intro hmem
        exact absurd (Finset.mem_singleton.1 hmem).symm hne
      · intro hall
        rcases hall X (List.mem_cons_self _ _) with ⟨fX, hfX, _⟩
        rw [hX] at hfX
        exact Option.noConfusion hfX
    · by_cases he : "e" ∈ fX
      · have heq : first_of_string (X :: rest) first =
            (fX \ {"e"}) ∪ first_of_string rest first := by
          simp [first_of_string, hX, he]
        rw [heq]
        have ih := first_of_string_eps_iff first rest
          (fun Y hY => h Y (List.mem_cons_of_mem _ hY))
        constructor
        · intro hmem
          rcases Finset.mem_union.1 hmem with hmem | hmem
          · exact absurd (Finset.mem_sdiff.1 hmem).2 (by simp)
          · intro Y hY
            rcases List.mem_cons.1 hY with rfl | hY
            · exact ⟨fX, hX, he⟩
            · exact ih.1 hmem Y hY
        · intro hall
          refine Finset.mem_union_right _ (ih.2 ?_)
          intro Y hY
          exact hall Y (List.mem_cons_of_mem _ hY)
      · have heq : first_of_string (X :: rest) first = fX \ {"e"} := by
          simp [first_of_string, hX, he]
        rw [heq]
        constructor
        · intro hmem
          exact absurd (Finset.mem_sdiff.1 hmem).2 (by simp)
        · intro hall
          rcases hall X (List.mem_cons_self _ _) with ⟨fX', hfX', he'⟩
          rw [hX] at hfX'
          cases hfX'
          exact absurd he' he

/-- C3 (amended): `first_of_string` follows the left-to-right rule — a
terminal is added and the scan stops, a nonterminal `X` contributes
`FIRST(X) \ {e}` and the scan continues exactly when `e ∈ FIRST(X)` — and,
provided the epsilon marker does not occur in `alpha` as a terminal, the
result contains `e` iff every symbol of `alpha` is a nonterminal whose FIRST
set contains `e` (including the empty sequence). -/
theorem first_of_string_spec (first : FMap) (alpha : List GSym) :
    (first_of_string [] first = {"e"}) ∧
    (∀ X rest, alook X first = none →
      first_of_string (X :: rest) first = {X}) ∧
    (∀ X rest fX, alook X first = some fX → "e" ∈ fX →
      first_of_string (X :: rest) first = (fX \ {"e"}) ∪ first_of_string rest first) ∧
    (∀ X rest fX, alook X first = some fX → "e" ∉ fX →
      first_of_string (X :: rest) first = fX \ {"e"}) ∧
    ((∀ X ∈ alpha, alook X first = none → X ≠ "e") →
      ("e" ∈ first_of_string alpha first ↔
        ∀ X ∈ alpha, ∃ fX, alook X first = some fX ∧ "e" ∈ fX)) := by
  refine ⟨rfl, ?_, ?_, ?_, first_of_string_eps_iff first alpha⟩
  · intro X rest hX
    simp [first_of_string, hX]
  · intro X rest fX hX he
    simp [first_of_string, hX, he]
  · intro X rest fX hX he
    simp [first_of_string, hX, he]

/-- C3 (counterexample): for the FIRST table that the pipeline computes for
grammar `S -> aB`, `B -> b | e` — the same table `check_ll1` passes to
`first_of_string` together with the right-hand side `['e']` — the scan of
`['e']` hits the terminal branch, so the result contains the epsilon marker
although `'e'` is not a nonterminal whose FIRST contains epsilon; the claimed
equivalence is false. -/
theorem C3_counterexample :
    "e" ∈ first_of_string ["e"] (calculate_first_sets (augGrammar gC9)) ∧
    ¬ (∀ X ∈ (["e"] : List GSym), ∃ fX,
        alook X (calculate_first_sets (augGrammar gC9)) = some fX ∧ "e" ∈ fX) := by
  constructor
  · decide
  · intro hall
    rcases hall "e" (List.mem_cons_self _ _) with ⟨fX, hfX, _⟩
    have hn : alook "e" (calculate_first_sets (augGrammar gC9)) = none := by decide
    rw [hn] at hfX
    exact Option.noConfusion hfX

/-- C3 (witness): the amended equivalence applied to the concrete sequence
`["B", "a"]` over the same pipeline FIRST table. -/
theorem C3_witness :
    "e" ∈ first_of_string ["B", "a"] (calculate_first_sets (augGrammar gC9)) ↔
      ∀ X ∈ (["B", "a"] : List GSym), ∃ fX,
        alook X (calculate_first_sets (augGrammar gC9)) = some fX ∧ "e" ∈ fX :=
  (first_of_string_spec (calculate_first_sets (augGrammar gC9)) ["B", "a"]).2.2.2.2
    (by decide)

/-! ### C1, C5, C9: concrete pipeline runs -/

/-- C1 (counterexample): for the ambiguous grammar `S -> SS | a` the
classification reports SLR(1) = true, not false: `construct_slr_table`
returns a table and `main` only tests `slr_res is not None`. -/
theorem C1_counterexample : (classify gC1).isSLR1 = true := by decide

/-- C1 (amended): for the grammar with productions `S -> SS` and `S -> a`,
classification returns LL(1) = false (FIRST/FIRST collision), but SLR(1) =
true — the SLR(1) outcome false is never produced after the productivity
check; no input string is consulted by `classify`. -/
theorem C1_amended :
    (classify gC1).isLL1 = false ∧ (classify gC1).isSLR1 = true := by decide

/-- C5: for the grammar `S -> AB`, `A -> a`, `B -> b`, classification reports
LL(1) = true and SLR(1) = true, the input `ab` is accepted by both
`predictive_parse` and `lr_parse`, and the input `ba` is rejected by both. -/
theorem C5_scenario :
    (classify gC5).isLL1 = true ∧ (classify gC5).isSLR1 = true ∧
    predictive_parse ((classify gC5).llTable.getD []) "ab" (augName gC5) 100 = PRes.acc ∧
    predictive_parse ((classify gC5).llTable.getD []) "ba" (augName gC5) 100 = PRes.rej ∧
    lr_parse "ab" ((classify gC5).slr.getD ([], [])).1
      ((classify gC5).slr.getD ([], [])).2 100 = PRes.acc ∧
    lr_parse "ba" ((classify gC5).slr.getD ([], [])).1
      ((classify gC5).slr.getD ([], [])).2 100 = PRes.rej := by decide

/-- C9: the two simulators do not recognize the same language for every
grammar classified both LL(1) and SLR(1).  For `S -> aB`, `B -> b | e`
(classified LL(1) and SLR(1)), the string `a` — derivable as `S => aB => a` —
is accepted by `predictive_parse` but rejected by `lr_parse`: the epsilon
production becomes a shift on the marker `'e'` in the SLR table, which the
input never provides. -/
theorem C9_simulators_disagree :
    (classify gC9).isLL1 = true ∧ (classify gC9).isSLR1 = true ∧
    predictive_parse ((classify gC9).llTable.getD []) "a" (augName gC9) 100 = PRes.acc ∧
    lr_parse "a" ((classify gC9).slr.getD ([], [])).1
      ((classify gC9).slr.getD ([], [])).2 100 = PRes.rej := by decide

/-! ### C8: `predictive_parse` can run forever after `check_ll1` succeeds -/

/-- The LL(1) table the pipeline builds for `S -> Ba`, `B -> e | Sb`:
the FOLLOW-driven entry `B/a ↦ e` is silently overwritten by `B/a ↦ Sb`. -/
def TBL8 : LLTable :=
  [("S\x27", [("a", ["S"])]), ("S", [("a", ["B", "a"])]), ("B", [("a", ["S", "b"])])]

theorem C8_stepS (n : Nat) (w : List GSym) :
    predictive_run TBL8 ["a", "$"] (n + 1) ("S" :: w) 0 =
    predictive_run TBL8 ["a", "$"] n ("B" :: "a" :: w) 0 := rfl

theorem C8_stepB (n : Nat) (w : List GSym) :
    predictive_run TBL8 ["a", "$"] (n + 1) ("B" :: w) 0 =
    predictive_run TBL8 ["a", "$"] n ("S" :: "b" :: w) 0 := rfl

theorem C8_loop : ∀ (n : Nat) (w : List GSym),
    predictive_run TBL8 ["a", "$"] n ("S" :: w) 0 = PRes.out ∧
    predictive_run TBL8 ["a", "$"] n ("B" :: w) 0 = PRes.out
  | 0, _ => ⟨rfl, rfl⟩
  | n + 1, w =>
    ⟨by rw [C8_stepS]; exact (C8_loop n ("a" :: w)).2,
     by rw [C8_stepB]; exact (C8_loop n ("b" :: w)).1⟩

/-- C8: the claim that `predictive_parse` terminates for every grammar that
passes the LL(1) conflict check is violated by the code.  The grammar
`S -> Ba`, `B -> e | Sb` passes `check_ll1` (the check compares `f_i` with
`FOLLOW(A)` instead of `f_j`), its table maps `S/a ↦ Ba` and `B/a ↦ Sb`, and
on input `a` the stack grows `S·w → B·a·w → S·b·a·w → …` forever without
consuming input: for every fuel the run is still unfinished. -/
theorem C8_nontermination :
    (classify gC8).isLL1 = true ∧
    (classify gC8).llTable = some TBL8 ∧
    ∀ n : Nat, predictive_parse TBL8 "a" (augName gC8) n = PRes.out := by
  refine ⟨by decide, by decide, ?_⟩
  intro n
  match n with
  | 0 => rfl
  | n + 1 =>
    show predictive_run TBL8 ["a", "$"] (n + 1) ["S\x27", "$"] 0 = PRes.out
    have hstep : predictive_run TBL8 ["a", "$"] (n + 1) ["S\x27", "$"] 0 =
        predictive_run TBL8 ["a", "$"] n ["S", "$"] 0 := rfl
    rw [hstep]
    exact (C8_loop n ["$"]).1

/-! ### C10 (counterexample): `lr_parse` can loop forever -/

/-- The SLR table the pipeline builds for `S -> cAd | fBg`, `A -> B`,
`B -> A | b` (unit-production cycle `A -> B -> A`). -/
def TBL10 : SLRTable :=
  [[("S", .shift 1), ("c", .shift 2), ("f", .shift 3)],
   [("$", .accept)],
   [("A", .shift 5), ("B", .shift 4), ("b", .shift 6)],
   [("B", .shift 7), ("A", .shift 8), ("b", .shift 6)],
   [("d", .reduce 3), ("g", .reduce 3)],
   [("d", .reduce 4), ("g", .reduce 4)],
   [("d", .reduce 5), ("g", .reduce 5)],
   [("g", .reduce 3), ("d", .reduce 3)],
   [("d", .reduce 4), ("g", .reduce 4)],
   [("$", .reduce 1)],
   [("$", .reduce 2)]]

/-- The numbered production list for the same grammar. -/
def PRODS10 : List (GSym × List GSym) :=
  [("S\x27", ["S"]), ("S", ["c", "A", "d"]), ("S", ["f", "B", "g"]),
   ("A", ["B"]), ("B", ["A"]), ("B", ["b"])]

/-- `lr_parse` never finishes on this input, whatever the fuel. -/
def lr_runs_forever (t : SLRTable) (prods : List (GSym × List GSym)) (s : String) : Prop :=
  ∀ n : Nat, lr_run t prods (strSyms s ++ ["$"]) n [0] 0 = PRes.out

theorem C10_cyc1 (n : Nat) :
    lr_run TBL10 PRODS10 ["c", "b", "g", "$"] (n + 1) [4, 2, 0] 2 =
    lr_run TBL10 PRODS10 ["c", "b", "g", "$"] n [5, 2, 0] 2 := rfl

theorem C10_cyc2 (n : Nat) :
    lr_run TBL10 PRODS10 ["c", "b", "g", "$"] (n + 1) [5, 2, 0] 2 =
    lr_run TBL10 PRODS10 ["c", "b", "g", "$"] n [4, 2, 0] 2 := rfl

theorem C10_loop : ∀ n : Nat,
    lr_run TBL10 PRODS10 ["c", "b", "g", "$"] n [4, 2, 0] 2 = PRes.out ∧
    lr_run TBL10 PRODS10 ["c", "b", "g", "$"] n [5, 2, 0] 2 = PRes.out
  | 0 => ⟨rfl, rfl⟩
  | n + 1 =>
    ⟨by rw [C10_cyc1]; exact (C10_loop n).2,
     by rw [C10_cyc2]; exact (C10_loop n).1⟩

theorem C10_pre (n : Nat) :
    lr_run TBL10 PRODS10 ["c", "b", "g", "$"] (n + 3) [0] 0 =
    lr_run TBL10 PRODS10 ["c", "b", "g", "$"] n [4, 2, 0] 2 := rfl

/-- C10 (counterexample): `lr_parse` does not always return a boolean.  On
the pipeline's own table for `S -> cAd | fBg`, `A -> B`, `B -> A | b` and
input `cbg`, after shifting `c`, `b` and reducing `B -> b`, the run cycles
through the unit reduces `A -> B` and `B -> A` forever: `goto(2, B) = 4`
reduces `A -> B` on `g`, `goto(2, A) = 5` reduces `B -> A` on `g`. -/
theorem C10_counterexample :
    ((classify gC10).slr.getD ([], [])).1 = TBL10 ∧
    ((classify gC10).slr.getD ([], [])).2 = PRODS10 ∧
    (classify gC10).isSLR1 = true ∧
    lr_runs_forever TBL10 PRODS10 "cbg" := by
  refine ⟨by decide, by decide, by decide, ?_⟩
  intro n
  show lr_run TBL10 PRODS10 ["c", "b", "g", "$"] n [0] 0 = PRes.out
  match n with
  | 0 => rfl
  | 1 => rfl
  | 2 => rfl
  | m + 3 => rw [C10_pre]; exact (C10_loop m).1

/-! ### C2: the SLR side of the classification never fails -/

theorem idxOf_isSome_of_mem {α : Type} [DecidableEq α] {x : α} :
    ∀ {l : List α}, x ∈ l → (idxOf x l).isSome
  | [], h => absurd h (List.not_mem_nil x)
  | y :: l, h => by
    by_cases hy : y = x
    · simp [idxOf, hy]
    · rcases List.mem_cons.1 h with rfl | h
      · exact absurd rfl hy
      · simp only [idxOf, if_neg hy]
        rcases Option.isSome_iff_exists.1 (idxOf_isSome_of_mem h) with ⟨j, hj⟩
        simp [hj]

theorem items_list_mem {g : Grammar} {it : Item} (h : it ∈ items_list g) :
    (it.1, it.2.1) ∈ prodList g ∧ it.2.2 ≤ it.2.1.length := by
  rw [items_list, List.mem_flatten] at h
  obtain ⟨l, hl, hit⟩ := h
  rw [List.mem_map] at hl
  obtain ⟨Ap, hAp, rfl⟩ := hl
  rw [List.mem_flatten] at hit
  obtain ⟨l2, hl2, hit⟩ := hit
  rw [List.mem_map] at hl2
  obtain ⟨prod, hprod, rfl⟩ := hl2
  rw [List.mem_map] at hit
  obtain ⟨p, hp, rfl⟩ := hit
  rw [List.mem_range] at hp
  refine ⟨?_, Nat.lt_succ_iff.1 hp⟩
  rw [prodList, List.mem_flatten]
  exact ⟨Ap.2.map (fun b => (Ap.1, b)), List.mem_map_of_mem _ hAp,
    List.mem_map_of_mem _ hprod⟩

theorem foldlM_option_isSome {σ β : Type} (f : σ → β → Option σ) :
    ∀ (l : List β) (s : σ), (∀ s' b, b ∈ l → (f s' b).isSome) →
      (l.foldlM f s).isSome
  | [], s, _ => by simp [List.foldlM]
  | b :: l, s, h => by
    have hb := h s b (List.mem_cons_self _ _)
    rcases Option.isSome_iff_exists.1 hb with ⟨s', hs'⟩
    simp only [List.foldlM, hs', Option.bind_eq_bind, Option.some_bind]
    exact foldlM_option_isSome f l s' (fun s'' b' hb' => h s'' b' (List.mem_cons_of_mem _ hb'))

theorem slr_item_step_isSome (g : Grammar) (trans : List ((Nat × GSym) × Nat))
    (follow : FMap) (start : GSym) (i : Nat) (t : SLRTable) {it : Item}
    (h : (it.1, it.2.1) ∈ prodList g) :
    (slr_item_step g trans follow start i t it).isSome := by
  rcases hg : it.2.1[it.2.2]? with _ | a
  · by_cases hs : it.1 = start
    · simp [slr_item_step, hg, hs]
    · rcases Option.isSome_iff_exists.1 (idxOf_isSome_of_mem h) with ⟨r, hr⟩
      simp [slr_item_step, hg, hs, hr]
  · rcases ht : alook (i, a) trans with _ | j <;> simp [slr_item_step, hg, ht]

theorem construct_slr_table_isSome (g : Grammar) (states : List (Finset Item))
    (trans : List ((Nat × GSym) × Nat)) (follow : FMap) (start : GSym) :
    (construct_slr_table g states trans follow start).isSome := by
  unfold construct_slr_table
  rw [Option.isSome_map']
  refine foldlM_option_isSome _ _ _ (fun t i _ => ?_)
  refine foldlM_option_isSome _ _ _ (fun t' it hit => ?_)
  have hmem : it ∈ items_list g := by
    have := List.mem_filter.1 hit
    exact List.mem_dedup.1 this.1
  exact slr_item_step_isSome g trans follow start i t' (items_list_mem hmem).1

/-- C2: for every grammar whose start symbol passes the productivity check,
the pipeline reports it SLR(1): `construct_slr_table` returns a table for
every such grammar (its only fallible step, the production-index lookup,
always succeeds because the processed items all carry grammar productions),
a later assignment to an occupied `(state, symbol)` action cell silently
overwrites the earlier one without any report, and the classification
outcome SLR(1) = false is unreachable after the productivity check. -/
theorem C2_slr_always (g : Grammar) (h : startSym g ∈ productive_nts g) :
    (classify g).isSLR1 = true ∧ (classify g).slr.isSome = true ∧
    (∀ (m : List (GSym × SAct)) (k : GSym) (v1 v2 : SAct),
      alook k (dinsert k v2 (dinsert k v1 m)) = some v2) := by
  refine ⟨?_, ?_, fun m k v1 v2 => alook_dinsert_self k v2 _⟩ <;>
    · simp only [classify, if_pos h]
      exact construct_slr_table_isSome _ _ _ _ _

/-- C2 (witness): the SLR(1) verdict for the concrete productive grammar
`S -> AB`, `A -> a`, `B -> b`. -/
theorem C2_witness : (classify gC5).isSLR1 = true :=
  (C2_slr_always gC5 (by decide)).1

/-! ### C4: machinery for the FOLLOW fixed point -/

/-- Pointwise order on FMaps with identical key structure. -/
def fle (f f' : FMap) : Prop :=
  List.Forall₂ (fun p q => p.1 = q.1 ∧ p.2 ⊆ q.2) f f'

theorem fle_refl (f : FMap) : fle f f :=
  List.forall₂_same.2 (fun _ _ => ⟨rfl, Finset.Subset.refl _⟩)

theorem fle_trans {f g h : FMap} (h1 : fle f g) (h2 : fle g h) : fle f h := by
  induction h1 generalizing h with
  | nil => cases h2; exact List.Forall₂.nil
  | cons hpq _ ih =>
    cases h2 with
    | cons hqr htail =>
      exact List.Forall₂.cons ⟨hpq.1.trans hqr.1, hpq.2.trans hqr.2⟩ (ih htail)

theorem fle_mupd (k : GSym) (s : Finset GSym) :
    ∀ f : FMap, fle f (mupd k s f)
  | [] => List.Forall₂.nil
  | p :: f => by
    refine List.Forall₂.cons ?_ (fle_mupd k s f)
    by_cases hp : p.1 = k <;> simp [hp, Finset.subset_union_left]

theorem fle_alook {f f' : FMap} (h : fle f f') {k : GSym} {v : Finset GSym}
    (hv : alook k f = some v) : ∃ w, alook k f' = some w ∧ v ⊆ w := by
  induction h with
  | nil => simp [alook] at hv
  | cons hpq htail ih =>
    rename_i p q f f'
    by_cases hp : p.1 = k
    · simp only [alook, if_pos hp] at hv
      cases hv
      exact ⟨q.2, by simp [alook, hpq.1 ▸ hp], hpq.2⟩
    · simp only [alook, if_neg hp] at hv
      have hq : ¬ q.1 = k := fun hc => hp (hpq.1 ▸ hc)
      rcases ih hv with ⟨w, hw, hsub⟩
      exact ⟨w, by simp [alook, hq, hw], hsub⟩

theorem fle_alook_none {f f' : FMap} (h : fle f f') {k : GSym}
    (hv : alook k f = none) : alook k f' = none := by
  induction h with
  | nil => simp [alook]
  | cons hpq htail ih =>
    rename_i p q f f'
    by_cases hp : p.1 = k
    · simp only [alook, if_pos hp] at hv
      exact Option.noConfusion hv
    · simp only [alook, if_neg hp] at hv
      have hq : ¬ q.1 = k := fun hc => hp (hpq.1 ▸ hc)
      simp [alook, hq, ih hv]

theorem fle_alookD_sub {f f' : FMap} (h : fle f f') (k : GSym) :
    alookD f k ∅ ⊆ alookD f' k ∅ := by
  rcases hv : alook k f with _ | v
  · simp [alookD, hv]
  · rcases fle_alook h hv with ⟨w, hw, hsub⟩
    simpa [alookD, hv, hw] using hsub

/-- Total cardinality of an FMap's sets. -/
def fsize (f : FMap) : Nat := (f.map (fun p => p.2.card)).sum

theorem fle_fsize_le {f f' : FMap} (h : fle f f') : fsize f ≤ fsize f' := by
  induction h with
  | nil => exact Nat.le_refl _
  | cons hpq htail ih =>
    simpa [fsize] using Nat.add_le_add (Finset.card_le_card hpq.2) ih

theorem fle_fsize_lt {f f' : FMap} (h : fle f f') (hne : f ≠ f') :
    fsize f < fsize f' := by
  induction h with
  | nil => exact absurd rfl hne
  | cons hpq htail ih =>
    rename_i p q l l'
    by_cases hq : p = q
    · subst hq
      have hlt : l ≠ l' := fun hc => hne (hc ▸ rfl)
      simpa [fsize] using Nat.add_lt_add_left (ih hlt) p.2.card
    · have hsub : p.2 ⊂ q.2 := by
        refine ⟨hpq.2, fun hback => hq ?_⟩
        have : p.2 = q.2 := Finset.Subset.antisymm hpq.2 hback
        exact Prod.ext hpq.1 this
      have hlt := Finset.card_lt_card hsub
      have hle := fle_fsize_le htail
      simpa [fsize] using Nat.add_lt_add_of_lt_of_le hlt hle

/-- Key structure is preserved by `mupd` and by every follow step. -/
theorem keysOf_follow_step (g : Grammar) (first : FMap) (f : FMap)
    (o : GSym × GSym × List GSym) :
    keysOf (follow_step g first f o) = keysOf f := by
  simp only [follow_step]
  split
  · split
    · split <;> simp [keysOf_mupd]
    · simp [keysOf_mupd]
  · rfl

theorem fle_follow_step (g : Grammar) (first : FMap) (f : FMap)
    (o : GSym × GSym × List GSym) : fle f (follow_step g first f o) := by
  simp only [follow_step]
  split
  · split
    · split
      · exact fle_trans (fle_mupd _ _ f) (fle_mupd _ _ _)
      · exact fle_mupd _ _ f
    · exact fle_mupd _ _ f
  · exact fle_refl f

theorem fle_foldl_follow (g : Grammar) (first : FMap) :
    ∀ (l : List (GSym × GSym × List GSym)) (f : FMap),
      fle f (l.foldl (follow_step g first) f)
  | [], f => fle_refl f
  | o :: l, f =>
    fle_trans (fle_follow_step g first f o) (fle_foldl_follow g first l _)

theorem keysOf_foldl_follow (g : Grammar) (first : FMap) :
    ∀ (l : List (GSym × GSym × List GSym)) (f : FMap),
      keysOf (l.foldl (follow_step g first) f) = keysOf f
  | [], _ => rfl
  | o :: l, f => by
    rw [List.foldl_cons, keysOf_foldl_follow g first l _, keysOf_follow_step]

/-- All sets of the map lie inside `U`. -/
def fbounded (U : Finset GSym) (f : FMap) : Prop := ∀ p ∈ f, p.2 ⊆ U

theorem alook_fmapUnion {k : GSym} {v : Finset GSym} :
    ∀ {m : FMap}, alook k m = some v → v ⊆ fmapUnion m
  | [], h => by simp [alook] at h
  | p :: m, h => by
    by_cases hp : p.1 = k
    · simp only [alook, if_pos hp] at h
      cases h
      simp only [fmapUnion, List.foldr_cons]
      exact Finset.subset_union_left
    · simp only [alook, if_neg hp] at h
      simp only [fmapUnion, List.foldr_cons]
      exact (alook_fmapUnion h).trans Finset.subset_union_right

theorem first_of_string_subset (first : FMap) :
    ∀ alpha : List GSym,
      first_of_string alpha first ⊆ alpha.toFinset ∪ fmapUnion first ∪ {"e"}
  | [] => by
    simp only [first_of_string]
    intro x hx
    simp only [Finset.mem_singleton] at hx
    subst hx
    simp
  | X :: rest => by
    rcases hX : alook X first with _ | fX
    · have heq : first_of_string (X :: rest) first = {X} := by
        simp [first_of_string, hX]
      rw [heq]
      intro x hx
      rw [Finset.mem_singleton] at hx
      subst hx
      simp
    · have hsub : fX ⊆ fmapUnion first := alook_fmapUnion hX
      by_cases he : "e" ∈ fX
      · have heq : first_of_string (X :: rest) first =
            (fX \ {"e"}) ∪ first_of_string rest first := by
          simp [first_of_string, hX, he]
        rw [heq]
        intro x hx
        rcases Finset.mem_union.1 hx with hx | hx
        · have := hsub (Finset.mem_sdiff.1 hx).1
          simp [this]
        · have := first_of_string_subset first rest hx
          simp only [Finset.mem_union, List.mem_toFinset] at this ⊢
          rcases this with (hx | hx) | hx
          · exact Or.inl (Or.inl (List.mem_cons_of_mem _ hx))
          · exact Or.inl (Or.inr hx)
          · exact Or.inr hx
      · have heq : first_of_string (X :: rest) first = fX \ {"e"} := by
          simp [first_of_string, hX, he]
        rw [heq]
        intro x hx
        have := hsub (Finset.mem_sdiff.1 hx).1
        simp [this]

theorem occsOfProd_mem {A : GSym} {o : GSym × GSym × List GSym} :
    ∀ {prod : List GSym}, o ∈ occsOfProd A prod →
      o.1 = A ∧ o.2.1 ∈ prod ∧ ∀ x ∈ o.2.2, x ∈ prod
  | [], h => by simp [occsOfProd] at h
  | B :: beta, h => by
    rcases List.mem_cons.1 h with rfl | h
    · exact ⟨rfl, List.mem_cons_self _ _, fun x hx => List.mem_cons_of_mem _ hx⟩
    · have ih := occsOfProd_mem h
      exact ⟨ih.1, List.mem_cons_of_mem _ ih.2.1,
        fun x hx => List.mem_cons_of_mem _ (ih.2.2 x hx)⟩

theorem occs_mem {g : Grammar} {o : GSym × GSym × List GSym} (h : o ∈ occs g) :
    ∃ Ap ∈ g, ∃ prod ∈ Ap.2, o.1 = Ap.1 ∧ o.2.1 ∈ prod ∧ ∀ x ∈ o.2.2, x ∈ prod := by
  rw [occs, List.mem_flatten] at h
  obtain ⟨l, hl, ho⟩ := h
  rw [List.mem_map] at hl
  obtain ⟨Ap, hAp, rfl⟩ := hl
  rw [List.mem_flatten] at ho
  obtain ⟨l2, hl2, ho⟩ := ho
  rw [List.mem_map] at hl2
  obtain ⟨prod, hprod, rfl⟩ := hl2
  have := occsOfProd_mem ho
  exact ⟨Ap, hAp, prod, hprod, this⟩

theorem mem_rhsSyms {g : Grammar} {Ap : GSym × List (List GSym)} {prod : List GSym}
    {x : GSym} (hAp : Ap ∈ g) (hprod : prod ∈ Ap.2) (hx : x ∈ prod) :
    x ∈ rhsSyms g := by
  rw [rhsSyms, List.mem_flatten]
  refine ⟨Ap.2.flatten, List.mem_map_of_mem _ hAp, ?_⟩
  rw [List.mem_flatten]
  exact ⟨prod, hprod, hx⟩

theorem fbounded_mupd {U : Finset GSym} {f : FMap} (h : fbounded U f)
    (k : GSym) {s : Finset GSym} (hs : s ⊆ U) : fbounded U (mupd k s f) := by
  induction f with
  | nil => intro p hp; simp [mupd] at hp
  | cons q f ih =>
    intro p hp
    simp only [mupd] at hp
    rcases List.mem_cons.1 hp with rfl | hp
    · by_cases hq : q.1 = k
      · simp only [if_pos hq]
        exact Finset.union_subset (h q (List.mem_cons_self _ _)) hs
      · simp only [if_neg hq]
        exact h q (List.mem_cons_self _ _)
    · exact ih (fun p' hp' => h p' (List.mem_cons_of_mem _ hp')) p hp

theorem fbounded_alookD {U : Finset GSym} {f : FMap} (h : fbounded U f) (k : GSym) :
    alookD f k ∅ ⊆ U := by
  rcases hv : alook k f with _ | v
  · simp [alookD, hv]
  · simpa [alookD, hv] using h _ (alook_mem hv)

theorem fbounded_follow_step (g : Grammar) (first : FMap)
    {f : FMap} (hf : fbounded (followUniv g first) f)
    {o : GSym × GSym × List GSym} (ho : o ∈ occs g) :
    fbounded (followUniv g first) (follow_step g first f o) := by
  obtain ⟨Ap, hAp, prod, hprod, _, _, hbeta⟩ := occs_mem ho
  simp only [follow_step]
  split
  · split
    · have hfb : first_of_string o.2.2 first \ {"e"} ⊆ followUniv g first := by
        intro x hx
        rcases Finset.mem_sdiff.1 hx with ⟨hx1, hx2⟩
        have hm := first_of_string_subset first o.2.2 hx1
        rcases Finset.mem_union.1 hm with h1 | h1
        · rcases Finset.mem_union.1 h1 with h2 | h2
          · rw [List.mem_toFinset] at h2
            exact Finset.mem_union_left _ (Finset.mem_union_left _
              (List.mem_toFinset.2 (mem_rhsSyms hAp hprod (hbeta x h2))))
          · exact Finset.mem_union_left _ (Finset.mem_union_right _ h2)
        · exact absurd h1 hx2
      have hf1 := fbounded_mupd hf o.2.1 hfb
      split
      · exact fbounded_mupd hf1 o.2.1 (fbounded_alookD hf1 o.1)
      · exact hf1
    · exact fbounded_mupd hf o.2.1 (fbounded_alookD hf o.1)
  · exact hf

theorem fbounded_foldl_follow (g : Grammar) (first : FMap) :
    ∀ (l : List (GSym × GSym × List GSym)), (∀ o ∈ l, o ∈ occs g) →
      ∀ {f : FMap}, fbounded (followUniv g first) f →
        fbounded (followUniv g first) (l.foldl (follow_step g first) f)
  | [], _, _, hf => hf
  | o :: l, hl, f, hf => by
    rw [List.foldl_cons]
    exact fbounded_foldl_follow g first l
      (fun o' ho' => hl o' (List.mem_cons_of_mem _ ho'))
      (fbounded_follow_step g first hf (hl o (List.mem_cons_self _ _)))

theorem fsize_le_of_fbounded {U : Finset GSym} :
    ∀ {f : FMap}, fbounded U f → fsize f ≤ f.length * U.card
  | [], _ => by simp [fsize]
  | p :: f, h => by
    have h1 := Finset.card_le_card (h p (List.mem_cons_self _ _))
    have h2 := fsize_le_of_fbounded (fun q hq => h q (List.mem_cons_of_mem _ hq))
    simp only [fsize, List.map_cons, List.sum_cons, List.length_cons, Nat.succ_mul]
    calc p.2.card + (f.map (fun p => p.2.card)).sum ≤ U.card + f.length * U.card :=
          Nat.add_le_add h1 h2
      _ = f.length * U.card + U.card := Nat.add_comm _ _

theorem keysOf_length {κ α : Type} (m : List (κ × α)) :
    (keysOf m).length = m.length := by
  simp [keysOf]

theorem keysOf_initFollow (g : Grammar) (start : GSym) :
    keysOf (initFollow g start) = keysOf g := by
  simp [keysOf, initFollow, List.map_map, Function.comp]

theorem fbounded_initFollow (g : Grammar) (first : FMap) (start : GSym) :
    fbounded (followUniv g first) (initFollow g start) := by
  intro p hp
  rw [initFollow, List.mem_map] at hp
  obtain ⟨Ap, _, rfl⟩ := hp
  by_cases hA : Ap.1 = start <;> simp only [if_pos, if_neg, hA]
  · intro x hx
    rw [Finset.mem_singleton] at hx
    subst hx
    exact Finset.mem_union_right _ (Finset.mem_singleton_self _)
  · simp

theorem follow_pass_fix (g : Grammar) (first : FMap) (start : GSym) :
    follow_pass g first (calculate_follow_sets g first start) =
      calculate_follow_sets g first start := by
  have hocc : ∀ o ∈ occs g, o ∈ occs g := fun o ho => ho
  refine iterFuel_fix (follow_pass g first) fsize
    (g.length * (followUniv g first).card)
    (fun f => fbounded (followUniv g first) f ∧ keysOf f = keysOf g)
    ?_ ?_ ?_ (followFuel g first) (initFollow g start) ?_ ?_
  · rintro f ⟨hb, hk⟩
    exact ⟨fbounded_foldl_follow g first (occs g) hocc hb,
      (keysOf_foldl_follow g first (occs g) f).trans hk⟩
  · rintro f ⟨hb, hk⟩ hne
    exact fle_fsize_lt (fle_foldl_follow g first (occs g) f) (Ne.symm hne)
  · rintro f ⟨hb, hk⟩
    have hb2 := fbounded_foldl_follow g first (occs g) hocc hb
    have hlen : (follow_pass g first f).length = g.length := by
      rw [← keysOf_length (follow_pass g first f), follow_pass,
        keysOf_foldl_follow, hk, keysOf_length]
    calc fsize (follow_pass g first f)
        ≤ (follow_pass g first f).length * (followUniv g first).card :=
          fsize_le_of_fbounded hb2
      _ = g.length * (followUniv g first).card := by rw [hlen]
  · exact ⟨fbounded_initFollow g first start, keysOf_initFollow g start⟩
  · simp only [followFuel]
    omega

theorem alookD_mupd_self {f : FMap} {k : GSym} (s : Finset GSym)
    (h : k ∈ keysOf f) : alookD (mupd k s f) k ∅ = alookD f k ∅ ∪ s := by
  rcases Option.isSome_iff_exists.1 ((alook_isSome_iff k f).2 h) with ⟨v, hv⟩
  simp [alookD, alook_mupd_self, hv]

/-- The contribution of one follow step to `FOLLOW(B)`. -/
theorem follow_step_contribution (g : Grammar) (first : FMap) (f : FMap)
    (o : GSym × GSym × List GSym) (hg : o.2.1 ∈ keysOf g)
    (hkf : o.2.1 ∈ keysOf f) :
    (first_of_string o.2.2 first \ {"e"} ⊆
      alookD (follow_step g first f o) o.2.1 ∅) ∧
    ((o.2.2 = [] ∨ "e" ∈ first_of_string o.2.2 first) →
      alookD f o.1 ∅ ⊆ alookD (follow_step g first f o) o.2.1 ∅) := by
  simp only [follow_step, if_pos hg]
  by_cases hb : o.2.2 = []
  · rw [if_neg (by simp [hb])]
    constructor
    · rw [hb]
      simp [first_of_string]
    · intro _
      rw [alookD_mupd_self _ hkf]
      exact Finset.subset_union_right
  · rw [if_pos hb]
    have hk1 : o.2.1 ∈ keysOf (mupd o.2.1 (first_of_string o.2.2 first \ {"e"}) f) := by
      rw [keysOf_mupd]; exact hkf
    by_cases he : "e" ∈ first_of_string o.2.2 first
    · rw [if_pos he]
      constructor
      · rw [alookD_mupd_self _ hk1, alookD_mupd_self _ hkf]
        intro x hx
        exact Finset.mem_union_left _ (Finset.mem_union_right _ hx)
      · intro _
        rw [alookD_mupd_self _ hk1]
        refine Finset.Subset.trans ?_ Finset.subset_union_right
        exact fle_alookD_sub (fle_mupd _ _ f) o.1
    · rw [if_neg he]
      constructor
      · rw [alookD_mupd_self _ hkf]
        exact Finset.subset_union_right
      · rintro (hc | hc)
        · exact absurd hc hb
        · exact absurd hc he

/-- The contribution of an occurrence survives to the end of the pass. -/
theorem follow_fold_contribution (g : Grammar) (first : FMap) :
    ∀ (l : List (GSym × GSym × List GSym)) (f : FMap)
      (o : GSym × GSym × List GSym), o ∈ l → o.2.1 ∈ keysOf g →
      keysOf f = keysOf g →
      (first_of_string o.2.2 first \ {"e"} ⊆
        alookD (l.foldl (follow_step g first) f) o.2.1 ∅) ∧
      ((o.2.2 = [] ∨ "e" ∈ first_of_string o.2.2 first) →
        alookD f o.1 ∅ ⊆ alookD (l.foldl (follow_step g first) f) o.2.1 ∅)
  | [], _, _, h, _, _ => absurd h (List.not_mem_nil _)
  | o' :: l, f, o, h, hg, hkf => by
    rw [List.foldl_cons]
    rcases List.mem_cons.1 h with rfl | h
    · have hc := follow_step_contribution g first f o hg (hkf ▸ hg)
      have hmono := fle_alookD_sub
        (fle_foldl_follow g first l (follow_step g first f o)) o.2.1
      exact ⟨hc.1.trans hmono, fun hyp => (hc.2 hyp).trans hmono⟩
    · have hkeys : keysOf (follow_step g first f o') = keysOf g := by
        rw [keysOf_follow_step]; exact hkf
      have ih := follow_fold_contribution g first l
        (follow_step g first f o') o h hg hkeys
      refine ⟨ih.1, fun hyp => Finset.Subset.trans ?_ (ih.2 hyp)⟩
      exact fle_alookD_sub (fle_follow_step g first f o') o.1

theorem occsOfProd_mem_of (A : GSym) :
    ∀ (prod : List GSym) (i : Nat) (B : GSym), prod.get? i = some B →
      (A, B, prod.drop (i + 1)) ∈ occsOfProd A prod
  | [], i, B, h => by simp at h
  | X :: prod, 0, B, h => by
    simp only [List.get?] at h
    cases h
    exact List.mem_cons_self _ _
  | X :: prod, i + 1, B, h => by
    simp only [List.get?] at h
    exact List.mem_cons_of_mem _ (occsOfProd_mem_of A prod i B h)

theorem occs_mem_of {g : Grammar} {A : GSym} {prods : List (List GSym)}
    (hA : (A, prods) ∈ g) {prod : List GSym} (hprod : prod ∈ prods)
    {i : Nat} {B : GSym} (hB : prod.get? i = some B) :
    (A, B, prod.drop (i + 1)) ∈ occs g := by
  rw [occs, List.mem_flatten]
  refine ⟨((A, prods).2.map (occsOfProd (A, prods).1)).flatten,
    List.mem_map_of_mem _ hA, ?_⟩
  rw [List.mem_flatten]
  exact ⟨occsOfProd A prod, List.mem_map_of_mem _ hprod, occsOfProd_mem_of A prod i B hB⟩

theorem initFollow_start {start : GSym} :
    ∀ {g : Grammar}, start ∈ keysOf g →
      "$" ∈ alookD (initFollow g start) start ∅
  | [], h => by simp [keysOf] at h
  | Ap :: g, h => by
    by_cases hA : Ap.1 = start
    · simp [initFollow, alookD, alook, hA]
    · have h2 : start ∈ keysOf g := by
        rcases List.mem_cons.1 h with h | h
        · exact absurd h.symm hA
        · exact h
      have := initFollow_start (g := g) h2
      simpa [initFollow, alookD, alook, hA] using this

theorem keysOf_calculate_follow_sets (g : Grammar) (first : FMap) (start : GSym) :
    keysOf (calculate_follow_sets g first start) = keysOf g := by
  refine iterFuel_inv (follow_pass g first) (fun f => keysOf f = keysOf g)
    (fun f hf => ?_) (followFuel g first) (initFollow g start)
    (keysOf_initFollow g start)
  show keysOf (follow_pass g first f) = keysOf g
  rw [follow_pass, keysOf_foldl_follow]
  exact hf

theorem fle_init_calculate_follow_sets (g : Grammar) (first : FMap) (start : GSym) :
    fle (initFollow g start) (calculate_follow_sets g first start) :=
  iterFuel_chain (follow_pass g first) fle fle_refl
    (fun _ _ _ => fle_trans) (fun f => fle_foldl_follow g first (occs g) f)
    (followFuel g first) (initFollow g start)

/-- C4: after `calculate_follow_sets`, the FOLLOW table satisfies: `$` is in
FOLLOW(start); for every production `A -> α B β` with `B` a nonterminal,
`FIRST(β) \ {e}` is a subset of FOLLOW(B), and FOLLOW(A) is a subset of
FOLLOW(B) whenever `β` is empty or `FIRST(β)` contains epsilon; in
particular FOLLOW(start) always contains `$`. -/
theorem C4_follow_spec (g : Grammar) (first : FMap) (start : GSym)
    (hstart : start ∈ keysOf g) :
    ("$" ∈ alookD (calculate_follow_sets g first start) start ∅) ∧
    (∀ A prods, (A, prods) ∈ g → ∀ prod ∈ prods, ∀ i B,
      prod.get? i = some B → B ∈ keysOf g →
      (first_of_string (prod.drop (i + 1)) first \ {"e"} ⊆
        alookD (calculate_follow_sets g first start) B ∅) ∧
      ((prod.drop (i + 1) = [] ∨ "e" ∈ first_of_string (prod.drop (i + 1)) first) →
        alookD (calculate_follow_sets g first start) A ∅ ⊆
          alookD (calculate_follow_sets g first start) B ∅)) := by
  constructor
  · exact fle_alookD_sub (fle_init_calculate_follow_sets g first start) start
      (initFollow_start hstart)
  · intro A prods hA prod hprod i B hB hBk
    have hocc := occs_mem_of hA hprod hB
    have hcontrib := follow_fold_contribution g first (occs g)
      (calculate_follow_sets g first start) (A, B, prod.drop (i + 1))
      hocc hBk (keysOf_calculate_follow_sets g first start)
    rw [show (occs g).foldl (follow_step g first)
        (calculate_follow_sets g first start) =
        calculate_follow_sets g first start from follow_pass_fix g first start]
      at hcontrib
    exact hcontrib

/-- C4 (witness): the FOLLOW properties instantiated on the augmented
grammar of `S -> AB`, `A -> a`, `B -> b` at the production `S -> AB`,
position of `B`. -/
theorem C4_witness :
    "$" ∈ alookD (calculate_follow_sets (augGrammar gC5)
        (calculate_first_sets (augGrammar gC5)) (augName gC5)) (augName gC5) ∅ ∧
    first_of_string [] (calculate_first_sets (augGrammar gC5)) \ {"e"} ⊆
      alookD (calculate_follow_sets (augGrammar gC5)
        (calculate_first_sets (augGrammar gC5)) (augName gC5)) "B" ∅ ∧
    alookD (calculate_follow_sets (augGrammar gC5)
        (calculate_first_sets (augGrammar gC5)) (augName gC5)) "S" ∅ ⊆
      alookD (calculate_follow_sets (augGrammar gC5)
        (calculate_first_sets (augGrammar gC5)) (augName gC5)) "B" ∅ := by
  have h := C4_follow_spec (augGrammar gC5) (calculate_first_sets (augGrammar gC5))
    (augName gC5) (by decide)
  have h2 := h.2 "S" [["A", "B"]] (by decide) ["A", "B"] (by decide) 1 "B"
    (by decide) (by decide)
  exact ⟨h.1, h2.1, h2.2 (Or.inl rfl)⟩

/-! ### C6: the canonical collection merges states by item-set content -/

/-- `l` is an initial segment of `l'`. -/
def prefixOf {α : Type} (l l' : List α) : Prop := ∃ t, l ++ t = l'

theorem prefixOf_refl {α : Type} (l : List α) : prefixOf l l := ⟨[], List.append_nil l⟩

theorem prefixOf_trans {α : Type} {l1 l2 l3 : List α}
    (h1 : prefixOf l1 l2) (h2 : prefixOf l2 l3) : prefixOf l1 l3 := by
  obtain ⟨t1, rfl⟩ := h1
  obtain ⟨t2, rfl⟩ := h2
  exact ⟨t1 ++ t2, (List.append_assoc _ _ _).symm⟩

theorem prefixOf_get? {α : Type} {l l' : List α} (h : prefixOf l l')
    {i : Nat} {x : α} (hx : l.get? i = some x) : l'.get? i = some x := by
  obtain ⟨t, rfl⟩ := h
  rcases List.get?_eq_some.1 hx with ⟨hlt, _⟩
  rw [List.get?_append hlt]
  exact hx

theorem nodup_append_single {α : Type} {l : List α} {x : α}
    (h : l.Nodup) (hx : x ∉ l) : (l ++ [x]).Nodup := by
  simp [List.nodup_append, h, hx]

/-- One transition-discovery step of `canonical_pass`. -/
def canonical_step (g : Grammar) (st : CState) (i : Nat) (acc : CState) (X : GSym) :
    CState :=
  let J := goto_set g (st.1.getD i ∅) X
  match idxOf J acc.1 with
  | some j => (acc.1, dinsert (i, X) j acc.2)
  | none => (acc.1 ++ [J], dinsert (i, X) acc.1.length acc.2)

theorem canonical_pass_eq (g : Grammar) (st : CState) :
    canonical_pass g st =
      (List.range st.1.length).foldl (fun acc i =>
        (after_dot g (st.1.getD i ∅)).foldl (canonical_step g st i) acc) st := rfl

/-- The invariant of the canonical collection: no duplicate states, and every
recorded transition `(i, X) ↦ j` points at the state whose content is exactly
`goto(states[i], X)`. -/
def CInv (g : Grammar) (st : CState) : Prop :=
  st.1.Nodup ∧
  ∀ i X j, alook (i, X) st.2 = some j →
    ∃ I, st.1.get? i = some I ∧ st.1.get? j = some (goto_set g I X)

/-- The working invariant during one pass starting from `st`. -/
def HInv (g : Grammar) (st : CState) (acc : CState) : Prop :=
  prefixOf st.1 acc.1 ∧ acc.1.Nodup ∧
  ∀ i X j, alook (i, X) acc.2 = some j →
    ∃ I, acc.1.get? i = some I ∧ acc.1.get? j = some (goto_set g I X)

theorem canonical_step_HInv (g : Grammar) (st : CState) (i : Nat)
    (hi : i < st.1.length) {acc : CState} (h : HInv g st acc) (X : GSym) :
    HInv g st (canonical_step g st i acc X) := by
  obtain ⟨hpre, hnd, htr⟩ := h
  have hIi : acc.1.get? i = some (st.1.getD i ∅) := by
    refine prefixOf_get? hpre ?_
    rw [List.getD_eq_getElem?_getD, ← List.get?_eq_getElem?]
    rcases List.get?_eq_some.1 (List.get?_eq_get hi) with _
    rw [List.get?_eq_get hi]
    rfl
  simp only [canonical_step]
  rcases hj : idxOf (goto_set g (st.1.getD i ∅) X) acc.1 with _ | j
  · -- new state appended
    refine ⟨prefixOf_trans hpre ⟨[goto_set g (st.1.getD i ∅) X], rfl⟩,
      nodup_append_single hnd ((idxOf_eq_none_iff _ _).1 hj), ?_⟩
    intro i' X' j' hj'
    by_cases hk : (i', X') = (i, X)
    · cases hk
      rw [alook_dinsert_self] at hj'
      cases hj'
      refine ⟨st.1.getD i ∅, ?_, ?_⟩
      · exact prefixOf_get? ⟨[_], rfl⟩ hIi
      · rw [List.get?_concat_length]
    · rw [alook_dinsert_ne _ _ _ hk] at hj'
      obtain ⟨I, hI1, hI2⟩ := htr i' X' j' hj'
      exact ⟨I, prefixOf_get? ⟨[_], rfl⟩ hI1, prefixOf_get? ⟨[_], rfl⟩ hI2⟩
  · -- existing state found
    refine ⟨hpre, hnd, ?_⟩
    intro i' X' j' hj'
    by_cases hk : (i', X') = (i, X)
    · cases hk
      rw [alook_dinsert_self] at hj'
      cases hj'
      exact ⟨st.1.getD i ∅, hIi, idxOf_get? hj⟩
    · rw [alook_dinsert_ne _ _ _ hk] at hj'
      exact htr i' X' j' hj'

theorem canonical_foldl_HInv (g : Grammar) (st : CState) (i : Nat)
    (hi : i < st.1.length) :
    ∀ (l : List GSym) {acc : CState}, HInv g st acc →
      HInv g st (l.foldl (canonical_step g st i) acc)
  | [], _, h => h
  | X :: l, acc, h => by
    rw [List.foldl_cons]
    exact canonical_foldl_HInv g st i hi l (canonical_step_HInv g st i hi h X)

theorem canonical_range_HInv (g : Grammar) (st : CState) :
    ∀ (l : List Nat), (∀ i ∈ l, i < st.1.length) → ∀ {acc : CState}, HInv g st acc →
      HInv g st (l.foldl (fun acc i =>
        (after_dot g (st.1.getD i ∅)).foldl (canonical_step g st i) acc) acc)
  | [], _, _, h => h
  | i :: l, hl, acc, h => by
    rw [List.foldl_cons]
    exact canonical_range_HInv g st l
      (fun i' hi' => hl i' (List.mem_cons_of_mem _ hi'))
      (canonical_foldl_HInv g st i (hl i (List.mem_cons_self _ _)) _ h)

theorem canonical_pass_CInv (g : Grammar) {st : CState} (h : CInv g st) :
    CInv g (canonical_pass g st) := by
  rw [canonical_pass_eq]
  have hH : HInv g st st := ⟨prefixOf_refl _, h.1, h.2⟩
  have := canonical_range_HInv g st (List.range st.1.length)
    (fun i hi => List.mem_range.1 hi) hH
  exact ⟨this.2.1, this.2.2⟩

/-- C6: in the canonical LR(0) collection, state identity is decided by
item-set content: no two states in the resulting list are equal as item
sets, and every recorded transition `(i, X) ↦ j` maps to the index of the
state whose content is exactly `goto(states[i], X)` — a `goto` result equal
to an already-discovered state is never appended again. -/
theorem C6_canonical (g : Grammar) (start : GSym) :
    (calculate_canonical_lr0 g start).1.Nodup ∧
    ∀ i X j, alook (i, X) (calculate_canonical_lr0 g start).2 = some j →
      ∃ I, (calculate_canonical_lr0 g start).1.get? i = some I ∧
        (calculate_canonical_lr0 g start).1.get? j = some (goto_set g I X) := by
  have := iterFuel_inv (canonical_pass g) (CInv g)
    (fun st h => canonical_pass_CInv g h) (canonFuel g) (init_canon g start)
    ⟨List.nodup_singleton _, fun i X j hj => by simp [init_canon, alook] at hj⟩
  exact this

/-- C6 (witness): the content relation instantiated on the automaton of the
augmented grammar of `S -> AB`, `A -> a`, `B -> b` at its first transition. -/
theorem C6_witness :
    ∃ I, (calculate_canonical_lr0 (augGrammar gC5) (augName gC5)).1.get? 0 = some I ∧
      (calculate_canonical_lr0 (augGrammar gC5) (augName gC5)).1.get? 1 =
        some (goto_set (augGrammar gC5) I "S") :=
  (C6_canonical (augGrammar gC5) (augName gC5)).2 0 "S" 1 (by decide)

/-! ### C7: the epsilon marker as a transition / shift symbol -/

/-- C7 (counterexample): for the grammar `S -> e`, the epsilon marker is a
transition symbol of the LR(0) automaton and the key of a shift action in
the SLR table — the dot of the item `S -> . e` stands before the symbol
`'e'` like before any terminal. -/
theorem C7_counterexample :
    alook (0, "e") (calculate_canonical_lr0 (augGrammar gC7) (augName gC7)).2 =
      some 2 ∧
    alook "e" (((classify gC7).slr.getD ([], [])).1.getD 0 []) =
      some (SAct.shift 2) := by decide

theorem dinsert_mem {κ α : Type} [DecidableEq κ] {k : κ} {v : α} {p : κ × α} :
    ∀ {m : List (κ × α)}, p ∈ dinsert k v m → p ∈ m ∨ p = (k, v)
  | [], h => by simpa [dinsert] using h
  | q :: m, h => by
    by_cases hq : q.1 = k
    · simp only [dinsert, if_pos hq] at h
      rcases List.mem_cons.1 h with rfl | h
      · exact Or.inr rfl
      · exact Or.inl (List.mem_cons_of_mem _ h)
    · simp only [dinsert, if_neg hq] at h
      rcases List.mem_cons.1 h with rfl | h
      · exact Or.inl (List.mem_cons_self _ _)
      · rcases dinsert_mem h with h | h
        · exact Or.inl (List.mem_cons_of_mem _ h)
        · exact Or.inr h

theorem prodList_mem {g : Grammar} {A : GSym} {prod : List GSym}
    (h : (A, prod) ∈ prodList g) : ∃ Ap ∈ g, prod ∈ Ap.2 := by
  rw [prodList, List.mem_flatten] at h
  obtain ⟨l, hl, hp⟩ := h
  rw [List.mem_map] at hl
  obtain ⟨Ap, hAp, rfl⟩ := hl
  rw [List.mem_map] at hp
  obtain ⟨b, hb, hpe⟩ := hp
  cases hpe
  exact ⟨Ap, hAp, hb⟩

/-- A symbol right after the dot of a grammar item is a right-hand-side
symbol of the grammar. -/
theorem item_after_dot_rhs {g : Grammar} {it : Item} (hit : it ∈ items_list g)
    {a : GSym} (ha : it.2.1.get? it.2.2 = some a) : a ∈ rhsSyms g := by
  obtain ⟨hp, _⟩ := items_list_mem hit
  obtain ⟨Ap, hAp, hprod⟩ := prodList_mem hp
  exact mem_rhsSyms hAp hprod (List.get?_mem ha)

theorem after_dot_rhs {g : Grammar} {I : Finset Item} {X : GSym}
    (h : X ∈ after_dot g I) : X ∈ rhsSyms g := by
  rw [after_dot, List.mem_dedup, List.mem_filterMap] at h
  obtain ⟨it, hit, ha⟩ := h
  have hmem : it ∈ items_list g :=
    List.mem_dedup.1 (List.mem_filter.1 hit).1
  exact item_after_dot_rhs hmem ha

/-- Transition keys are always right-hand-side symbols. -/
def TKeys (g : Grammar) (st : CState) : Prop :=
  ∀ p ∈ st.2, p.1.2 ∈ rhsSyms g

theorem canonical_step_TKeys (g : Grammar) (st : CState) (i : Nat)
    {acc : CState} (h : TKeys g acc) {X : GSym}
    (hX : X ∈ after_dot g (st.1.getD i ∅)) :
    TKeys g (canonical_step g st i acc X) := by
  simp only [canonical_step]
  rcases idxOf (goto_set g (st.1.getD i ∅) X) acc.1 with _ | j <;>
  · intro p hp
    rcases dinsert_mem hp with hp | rfl
    · exact h p hp
    · exact after_dot_rhs hX

theorem canonical_foldl_TKeys (g : Grammar) (st : CState) (i : Nat) :
    ∀ (l : List GSym), (∀ X ∈ l, X ∈ after_dot g (st.1.getD i ∅)) →
      ∀ {acc : CState}, TKeys g acc →
        TKeys g (l.foldl (canonical_step g st i) acc)
  | [], _, _, h => h
  | X :: l, hl, acc, h => by
    rw [List.foldl_cons]
    exact canonical_foldl_TKeys g st i l
      (fun X' hX' => hl X' (List.mem_cons_of_mem _ hX'))
      (canonical_step_TKeys g st i h (hl X (List.mem_cons_self _ _)))

theorem canonical_range_TKeys (g : Grammar) (st : CState) :
    ∀ (l : List Nat), ∀ {acc : CState}, TKeys g acc →
      TKeys g (l.foldl (fun acc i =>
        (after_dot g (st.1.getD i ∅)).foldl (canonical_step g st i) acc) acc)
  | [], _, h => h
  | i :: l, acc, h => by
    rw [List.foldl_cons]
    exact canonical_range_TKeys g st l
      (canonical_foldl_TKeys g st i _ (fun X hX => hX) h)

theorem canonical_TKeys (g : Grammar) (start : GSym) :
    TKeys g (calculate_canonical_lr0 g start) := by
  refine iterFuel_inv (canonical_pass g) (TKeys g) (fun st h => ?_)
    (canonFuel g) (init_canon g start) (fun p hp => by simp [init_canon] at hp)
  rw [canonical_pass_eq]
  exact canonical_range_TKeys g st (List.range st.1.length) h

/-- Shift entries of the table only sit at right-hand-side symbols. -/
def ShiftKeys (g : Grammar) (t : SLRTable) : Prop :=
  ∀ row ∈ t, ∀ q ∈ row, (∃ j, q.2 = SAct.shift j) → q.1 ∈ rhsSyms g

theorem getD_row_mem {t : SLRTable} {i : Nat} {q : GSym × SAct}
    (hq : q ∈ t.getD i []) : ∃ row ∈ t, q ∈ row := by
  by_cases hi : i < t.length
  · refine ⟨t.getD i [], ?_, hq⟩
    rw [List.getD_eq_getElem?_getD, List.getElem?_eq_getElem hi]
    exact List.getElem_mem _
  · rw [List.getD_eq_getElem?_getD, List.getElem?_eq_none (Nat.le_of_not_lt hi)] at hq
    simp at hq

theorem tblIns_ShiftKeys {g : Grammar} {t : SLRTable} (h : ShiftKeys g t)
    (i : Nat) (a : GSym) (act : SAct)
    (hact : (∃ j, act = SAct.shift j) → a ∈ rhsSyms g) :
    ShiftKeys g (tblIns i a act t) := by
  intro row hrow q hq hsh
  rcases List.mem_or_eq_of_mem_set hrow with hrow | rfl
  · exact h row hrow q hq hsh
  · rcases dinsert_mem hq with hq | rfl
    · obtain ⟨row', hrow', hq'⟩ := getD_row_mem hq
      exact h row' hrow' q hq' hsh
    · exact hact hsh

theorem slr_reduce_fold_ShiftKeys {g : Grammar} (i : Nat) (r : Nat) :
    ∀ (l : List GSym) {t : SLRTable}, ShiftKeys g t →
      ShiftKeys g (l.foldl (fun t a => tblIns i a (SAct.reduce r) t) t)
  | [], _, h => h
  | a :: l, t, h => by
    rw [List.foldl_cons]
    exact slr_reduce_fold_ShiftKeys i r l
      (tblIns_ShiftKeys h i a _ (fun ⟨j, hj⟩ => SAct.noConfusion hj))

theorem slr_item_step_ShiftKeys {g : Grammar} {trans : List ((Nat × GSym) × Nat)}
    {follow : FMap} {start : GSym} {i : Nat} {t : SLRTable} {it : Item}
    (hit : it ∈ items_list g) (h : ShiftKeys g t) {t' : SLRTable}
    (hstep : slr_item_step g trans follow start i t it = some t') :
    ShiftKeys g t' := by
  rcases hg : it.2.1[it.2.2]? with _ | a
  · by_cases hs : it.1 = start
    · simp only [slr_item_step, List.get?_eq_getElem?, hg, hs, if_pos,
        Option.some.injEq] at hstep
      subst hstep
      exact tblIns_ShiftKeys h i "$" _ (fun ⟨j, hj⟩ => SAct.noConfusion hj)
    · rcases hr : idxOf (it.1, it.2.1) (prodList g) with _ | r
      · simp [slr_item_step, List.get?_eq_getElem?, hg, hs, hr] at hstep
      · simp only [slr_item_step, List.get?_eq_getElem?, hg, if_neg hs, hr,
          Option.some.injEq] at hstep
        subst hstep
        exact slr_reduce_fold_ShiftKeys i r _ h
  · rcases ht : alook (i, a) trans with _ | j
    · simp only [slr_item_step, List.get?_eq_getElem?, hg, ht,
        Option.some.injEq] at hstep
      subst hstep
      exact h
    · simp only [slr_item_step, List.get?_eq_getElem?, hg, ht,
        Option.some.injEq] at hstep
      subst hstep
      refine tblIns_ShiftKeys h i a _ (fun _ => item_after_dot_rhs hit ?_)
      rw [List.get?_eq_getElem?]
      exact hg

theorem foldlM_option_inv {σ β : Type} (f : σ → β → Option σ) (P : σ → Prop) :
    ∀ (l : List β) (s : σ), P s →
      (∀ s' b, b ∈ l → P s' → ∀ t', f s' b = some t' → P t') →
      ∀ t, l.foldlM f s = some t → P t
  | [], s, hs, _, t, ht => by
    simp only [List.foldlM] at ht
    cases ht
    exact hs
  | b :: l, s, hs, hstep, t, ht => by
    simp only [List.foldlM, Option.bind_eq_bind] at ht
    rcases hb : f s b with _ | s'
    · rw [hb] at ht
      exact Option.noConfusion ht
    · rw [hb] at ht
      simp only [Option.some_bind] at ht
      exact foldlM_option_inv f P l s'
        (hstep s b (List.mem_cons_self _ _) hs s' hb)
        (fun s'' b' hb' => hstep s'' b' (List.mem_cons_of_mem _ hb'))
        t ht

theorem construct_slr_table_ShiftKeys (g : Grammar) (states : List (Finset Item))
    (trans : List ((Nat × GSym) × Nat)) (follow : FMap) (start : GSym)
    {tbl : SLRTable} {prods : List (GSym × List GSym)}
    (h : construct_slr_table g states trans follow start = some (tbl, prods)) :
    ShiftKeys g tbl := by
  unfold construct_slr_table at h
  rcases hf : (List.range states.length).foldlM (fun t i =>
      (state_items g (states.getD i ∅)).foldlM
        (fun t it => slr_item_step g trans follow start i t it) t)
      ((List.replicate states.length []) : SLRTable) with _ | t0
  · rw [hf] at h
    exact Option.noConfusion h
  · rw [hf] at h
    simp only [Option.map_some'] at h
    cases h
    refine foldlM_option_inv _ (ShiftKeys g) (List.range states.length) _
      ?_ ?_ _ hf
    · intro row hrow q hq _
      rw [List.eq_of_mem_replicate hrow] at hq
      exact absurd hq (List.not_mem_nil q)
    · intro s' i _ hP t' ht'
      refine foldlM_option_inv _ (ShiftKeys g) _ _ hP ?_ _ ht'
      intro s'' it hitmem hP' t'' ht''
      have hit : it ∈ items_list g :=
        List.mem_dedup.1 (List.mem_filter.1 hitmem).1
      exact slr_item_step_ShiftKeys hit hP' ht''

/-- C7 (amended): for every grammar none of whose right-hand sides mention
the epsilon marker as a symbol, `'e'` never appears as a transition symbol
of the LR(0) automaton nor as the key of a shift action in the SLR(1)
table; a grammar with an epsilon production however does put `'e'` there
(see the counterexample), since its right-hand side is the one-symbol
sequence `['e']`. -/
theorem C7_amended (g : Grammar) (start : GSym) (follow : FMap)
    (he : "e" ∉ rhsSyms g) :
    (∀ p ∈ (calculate_canonical_lr0 g start).2, p.1.2 ≠ "e") ∧
    (∀ tbl prods, construct_slr_table g (calculate_canonical_lr0 g start).1
        (calculate_canonical_lr0 g start).2 follow start = some (tbl, prods) →
      ∀ row ∈ tbl, ∀ q ∈ row, (∃ j, q.2 = SAct.shift j) → q.1 ≠ "e") := by
  constructor
  · intro p hp hc
    exact he (hc ▸ canonical_TKeys g start p hp)
  · intro tbl prods htbl row hrow q hq hsh hc
    exact he (hc ▸ construct_slr_table_ShiftKeys g _ _ follow start htbl row hrow q hq hsh)

/-- C7 (witness): the amended statement applied to the grammar
`S -> AB`, `A -> a`, `B -> b`, whose right-hand sides never mention `'e'`,
at the transition `(0, S)` of its automaton. -/
theorem C7_witness :
    ((0, "S"), 1) ∈ (calculate_canonical_lr0 (augGrammar gC5) (augName gC5)).2 ∧
    (0, "S").2 ≠ "e" := by
  refine ⟨by decide, ?_⟩
  exact (C7_amended (augGrammar gC5) (augName gC5) [] (by decide)).1
    ((0, "S"), 1) (by decide)

/-! ### C10 (amended): `lr_parse` on pipeline tables never raises.
First: structural lemmas about `calculate_closure` and `goto_set`. -/

theorem items_list_intro {g : Grammar} {Ap : GSym × List (List GSym)}
    (hAp : Ap ∈ g) {prod : List GSym} (hprod : prod ∈ Ap.2) {p : Nat}
    (hp : p ≤ prod.length) : (Ap.1, prod, p) ∈ items_list g := by
  rw [items_list, List.mem_flatten]
  refine ⟨(Ap.2.map (fun prod =>
    (List.range (prod.length + 1)).map (fun p => (Ap.1, prod, p)))).flatten,
    List.mem_map_of_mem _ hAp, ?_⟩
  rw [List.mem_flatten]
  refine ⟨(List.range (prod.length + 1)).map (fun p => (Ap.1, prod, p)),
    List.mem_map_of_mem _ hprod, ?_⟩
  exact List.mem_map_of_mem _ (List.mem_range.2 (Nat.lt_succ_of_le hp))

theorem prodList_mem_key {g : Grammar} {A : GSym} {prod : List GSym}
    (h : (A, prod) ∈ prodList g) : ∃ Ap ∈ g, Ap.1 = A ∧ prod ∈ Ap.2 := by
  rw [prodList, List.mem_flatten] at h
  obtain ⟨l, hl, hp⟩ := h
  rw [List.mem_map] at hl
  obtain ⟨Ap, hAp, rfl⟩ := hl
  rw [List.mem_map] at hp
  obtain ⟨b, hb, hpe⟩ := hp
  cases hpe
  exact ⟨Ap, hAp, rfl, hb⟩

theorem item_expand_mem {g : Grammar} {it0 it : Item} :
    it ∈ item_expand g it0 ↔
      ∃ X alts, it0.2.1.get? it0.2.2 = some X ∧ alook X g = some alts ∧
        ∃ b ∈ alts, it = (X, b, 0) := by
  unfold item_expand
  split
  · next hX =>
    simp only [Finset.not_mem_empty, false_iff]
    rintro ⟨X, alts, hX', _⟩
    rw [hX] at hX'
    exact Option.noConfusion hX'
  · next X hX =>
    split
    · next ha =>
      simp only [Finset.not_mem_empty, false_iff]
      rintro ⟨X', alts, hX', ha', _⟩
      rw [hX] at hX'
      cases hX'
      rw [ha] at ha'
      exact Option.noConfusion ha'
    · next alts ha =>
      rw [List.mem_toFinset, List.mem_map]
      constructor
      · rintro ⟨b, hb, rfl⟩
        exact ⟨X, alts, hX, ha, b, hb, rfl⟩
      · rintro ⟨X', alts', hX', ha', b, hb, rfl⟩
        rw [hX] at hX'
        cases hX'
        rw [ha] at ha'
        cases ha'
        exact ⟨b, hb, rfl⟩

theorem closure_sub (g : Grammar) (S : Finset Item) :
    S ⊆ calculate_closure g S :=
  iterFuel_chain (closure_pass g) (· ⊆ ·) (fun _ => Finset.Subset.refl _)
    (fun _ _ _ => Finset.Subset.trans) (fun _ => Finset.subset_union_left)
    (prodCount g + 1) S

theorem closure_pos (g : Grammar) (S : Finset Item) :
    ∀ it ∈ calculate_closure g S, 1 ≤ it.2.2 → it ∈ S := by
  refine iterFuel_inv (closure_pass g) (fun c => ∀ it ∈ c, 1 ≤ it.2.2 → it ∈ S)
    ?_ (prodCount g + 1) S (fun it hit _ => hit)
  intro c hc it hit hpos
  rcases Finset.mem_union.1 hit with hit | hit
  · exact hc it hit hpos
  · rcases Finset.mem_biUnion.1 hit with ⟨it0, _, hexp⟩
    obtain ⟨X, alts, _, _, b, _, rfl⟩ := item_expand_mem.1 hexp
    exact absurd hpos (by simp)

theorem closure_origin (g : Grammar) (S : Finset Item) :
    ∀ it ∈ calculate_closure g S, it ∈ S ∨
      ∃ it' ∈ calculate_closure g S, ∃ alts,
        it'.2.1.get? it'.2.2 = some it.1 ∧ alook it.1 g = some alts ∧
        it.2.1 ∈ alts ∧ it.2.2 = 0 := by
  have key : ∀ c, (∀ it ∈ c, it ∈ S ∨
      ∃ it' ∈ c, ∃ alts, it'.2.1.get? it'.2.2 = some it.1 ∧
        alook it.1 g = some alts ∧ it.2.1 ∈ alts ∧ it.2.2 = 0) →
      ∀ it ∈ closure_pass g c, it ∈ S ∨
      ∃ it' ∈ closure_pass g c, ∃ alts, it'.2.1.get? it'.2.2 = some it.1 ∧
        alook it.1 g = some alts ∧ it.2.1 ∈ alts ∧ it.2.2 = 0 := by
    intro c hc it hit
    have hsub : c ⊆ closure_pass g c := Finset.subset_union_left
    rcases Finset.mem_union.1 hit with hit | hit
    · rcases hc it hit with h | ⟨it', hit', alts, h1, h2, h3, h4⟩
      · exact Or.inl h
      · exact Or.inr ⟨it', hsub hit', alts, h1, h2, h3, h4⟩
    · rcases Finset.mem_biUnion.1 hit with ⟨it0, hit0, hexp⟩
      obtain ⟨X, alts, hX, ha, b, hb, rfl⟩ := item_expand_mem.1 hexp
      exact Or.inr ⟨it0, hsub hit0, alts, hX, ha, hb, rfl⟩
  exact iterFuel_inv (closure_pass g) _ key (prodCount g + 1) S
    (fun it hit => Or.inl hit)

theorem closure_wf (g : Grammar) (S : Finset Item)
    (hS : ∀ it ∈ S, it ∈ items_list g) :
    ∀ it ∈ calculate_closure g S, it ∈ items_list g := by
  refine iterFuel_inv (closure_pass g) (fun c => ∀ it ∈ c, it ∈ items_list g)
    ?_ (prodCount g + 1) S hS
  intro c hc it hit
  rcases Finset.mem_union.1 hit with hit | hit
  · exact hc it hit
  · rcases Finset.mem_biUnion.1 hit with ⟨it0, _, hexp⟩
    obtain ⟨X, alts, hX, ha, b, hb, rfl⟩ := item_expand_mem.1 hexp
    have hmem : (X, alts) ∈ g := alook_mem ha
    exact items_list_intro hmem hb (Nat.zero_le _)

theorem moved_mem {I : Finset Item} {X : GSym} {it : Item} :
    it ∈ I.biUnion (item_moved X) ↔
      ∃ it0 ∈ I, it0.2.1.get? it0.2.2 = some X ∧
        it = (it0.1, it0.2.1, it0.2.2 + 1) := by
  rw [Finset.mem_biUnion]
  constructor
  · rintro ⟨it0, hit0, hm⟩
    rw [item_moved] at hm
    split at hm
    · next h =>
      exact ⟨it0, hit0, h, Finset.mem_singleton.1 hm⟩
    · exact absurd hm (Finset.not_mem_empty it)
  · rintro ⟨it0, hit0, hX, rfl⟩
    refine ⟨it0, hit0, ?_⟩
    rw [item_moved, if_pos hX]
    exact Finset.mem_singleton_self _

theorem goto_pos1 {g : Grammar} {I : Finset Item} {X : GSym} {it : Item}
    (h : it ∈ goto_set g I X) (hpos : 1 ≤ it.2.2) :
    ∃ it0 ∈ I, it0.2.1.get? it0.2.2 = some X ∧
      it = (it0.1, it0.2.1, it0.2.2 + 1) :=
  moved_mem.1 (closure_pos g _ it h hpos)

theorem goto_wf {g : Grammar} {I : Finset Item}
    (hI : ∀ it ∈ I, it ∈ items_list g) (X : GSym) :
    ∀ it ∈ goto_set g I X, it ∈ items_list g := by
  refine closure_wf g _ ?_
  intro it hit
  obtain ⟨it0, hit0, hX, rfl⟩ := moved_mem.1 hit
  obtain ⟨hp, _⟩ := items_list_mem (hI it0 hit0)
  obtain ⟨Ap, hAp, hA1, hprod⟩ := prodList_mem_key hp
  have hlt : it0.2.2 < it0.2.1.length := by
    rcases List.get?_eq_some.1 hX with ⟨hlt, _⟩
    exact hlt
  exact hA1 ▸ items_list_intro hAp hprod hlt

/-! ### Canonical collection: further invariants and the fixed point -/

theorem keysOf_dinsert_sub {κ α : Type} [DecidableEq κ] (k : κ) (v : α) :
    ∀ m : List (κ × α), keysOf m ⊆ keysOf (dinsert k v m)
  | [] => by simp [dinsert, keysOf]
  | p :: m => by
    by_cases hp : p.1 = k
    · simp only [dinsert, if_pos hp, keysOf, List.map_cons]
      intro x hx
      rcases List.mem_cons.1 hx with rfl | hx
      · exact hp ▸ List.mem_cons_self _ _
      · exact List.mem_cons_of_mem _ hx
    · simp only [dinsert, if_neg hp, keysOf, List.map_cons]
      intro x hx
      rcases List.mem_cons.1 hx with rfl | hx
      · exact List.mem_cons_self _ _
      · exact List.mem_cons_of_mem _ (keysOf_dinsert_sub k v m hx)

theorem mem_keysOf_dinsert {κ α : Type} [DecidableEq κ] (k : κ) (v : α) :
    ∀ m : List (κ × α), k ∈ keysOf (dinsert k v m)
  | [] => by simp [dinsert, keysOf]
  | p :: m => by
    by_cases hp : p.1 = k
    · simp [dinsert, if_pos hp, keysOf]
    · simp only [dinsert, if_neg hp, keysOf, List.map_cons]
      exact List.mem_cons_of_mem _ (mem_keysOf_dinsert k v m)

theorem length_dinsert_not_mem {κ α : Type} [DecidableEq κ] {k : κ} (v : α) :
    ∀ {m : List (κ × α)}, k ∉ keysOf m →
      (dinsert k v m).length = m.length + 1
  | [], _ => rfl
  | p :: m, h => by
    simp only [keysOf, List.map_cons, List.mem_cons] at h
    push_neg at h
    simp only [dinsert, if_neg (Ne.symm h.1), List.length_cons]
    rw [length_dinsert_not_mem v (by simpa [keysOf] using h.2)]

theorem length_dinsert_mem {κ α : Type} [DecidableEq κ] {k : κ} (v : α) :
    ∀ {m : List (κ × α)}, k ∈ keysOf m → (dinsert k v m).length = m.length
  | [], h => by simp [keysOf] at h
  | p :: m, h => by
    by_cases hp : p.1 = k
    · simp [dinsert, if_pos hp]
    · simp only [keysOf, List.map_cons, List.mem_cons] at h
      rcases h with h | h
      · exact absurd h.symm hp
      · simp only [dinsert, if_neg hp, List.length_cons]
        rw [length_dinsert_mem v (by simpa [keysOf] using h)]

theorem nodup_idxOf {α : Type} [DecidableEq α] {x : α} :
    ∀ {l : List α}, l.Nodup → ∀ {j : Nat}, l.get? j = some x → idxOf x l = some j
  | [], _, j, h => by simp at h
  | y :: l, hnd, 0, h => by
    simp only [List.get?] at h
    cases h
    simp [idxOf]
  | y :: l, hnd, j + 1, h => by
    simp only [List.get?] at h
    have hyx : y ≠ x := by
      intro hc
      subst hc
      exact (List.nodup_cons.1 hnd).1 (List.get?_mem h)
    simp only [idxOf, if_neg hyx]
    rw [nodup_idxOf (List.nodup_cons.1 hnd).2 h]
    rfl

theorem canonical_step_pref (g : Grammar) (st : CState) (i : Nat)
    (acc : CState) (X : GSym) :
    prefixOf acc.1 (canonical_step g st i acc X).1 := by
  simp only [canonical_step]
  rcases idxOf (goto_set g (st.1.getD i ∅) X) acc.1 with _ | j
  · exact ⟨[goto_set g (st.1.getD i ∅) X], rfl⟩
  · exact prefixOf_refl _

theorem canonical_foldl_pref (g : Grammar) (st : CState) (i : Nat) :
    ∀ (l : List GSym) (acc : CState),
      prefixOf acc.1 (l.foldl (canonical_step g st i) acc).1
  | [], acc => prefixOf_refl _
  | X :: l, acc => by
    rw [List.foldl_cons]
    exact prefixOf_trans (canonical_step_pref g st i acc X)
      (canonical_foldl_pref g st i l _)

theorem canonical_range_pref (g : Grammar) (st : CState) :
    ∀ (l : List Nat) (acc : CState),
      prefixOf acc.1 ((l.foldl (fun acc i =>
        (after_dot g (st.1.getD i ∅)).foldl (canonical_step g st i) acc) acc)).1
  | [], _ => prefixOf_refl _
  | i :: l, acc => by
    rw [List.foldl_cons]
    exact prefixOf_trans (canonical_foldl_pref g st i _ acc)
      (canonical_range_pref g st l _)

theorem canonical_pass_pref (g : Grammar) (st : CState) :
    prefixOf st.1 (canonical_pass g st).1 := by
  rw [canonical_pass_eq]
  exact canonical_range_pref g st (List.range st.1.length) st

theorem canonical_states_pref (g : Grammar) (start : GSym) :
    prefixOf (init_canon g start).1 (calculate_canonical_lr0 g start).1 :=
  iterFuel_chain (canonical_pass g) (fun st st' => prefixOf st.1 st'.1)
    (fun _ => prefixOf_refl _) (fun _ _ _ => prefixOf_trans)
    (fun st => canonical_pass_pref g st) (canonFuel g) (init_canon g start)

/-- Every state of the collection carries only grammar items. -/
def SWF (g : Grammar) (st : CState) : Prop :=
  ∀ I ∈ st.1, ∀ it ∈ I, it ∈ items_list g

theorem getD_mem {α : Type} {l : List α} {i : Nat} (h : i < l.length) (d : α) :
    l.getD i d ∈ l := by
  rw [List.getD_eq_getElem?_getD, List.getElem?_eq_getElem h]
  exact List.getElem_mem _

theorem canonical_step_SWF (g : Grammar) (st : CState) (i : Nat)
    (hi : i < st.1.length) (hst : SWF g st) {acc : CState}
    (_hpre : prefixOf st.1 acc.1) (h : SWF g acc) (X : GSym) :
    SWF g (canonical_step g st i acc X) := by
  simp only [canonical_step]
  rcases idxOf (goto_set g (st.1.getD i ∅) X) acc.1 with _ | j
  · intro I hI
    rcases List.mem_append.1 hI with hI | hI
    · exact h I hI
    · rw [List.mem_singleton] at hI
      subst hI
      exact goto_wf (hst _ (getD_mem hi ∅)) X
  · exact h

theorem canonical_foldl_SWF (g : Grammar) (st : CState) (i : Nat)
    (hi : i < st.1.length) (hst : SWF g st) :
    ∀ (l : List GSym) {acc : CState}, prefixOf st.1 acc.1 → SWF g acc →
      SWF g (l.foldl (canonical_step g st i) acc)
  | [], _, _, h => h
  | X :: l, acc, hpre, h => by
    rw [List.foldl_cons]
    exact canonical_foldl_SWF g st i hi hst l
      (prefixOf_trans hpre (canonical_step_pref g st i acc X))
      (canonical_step_SWF g st i hi hst hpre h X)

theorem canonical_range_SWF (g : Grammar) (st : CState) (hst : SWF g st) :
    ∀ (l : List Nat), (∀ i ∈ l, i < st.1.length) →
      ∀ {acc : CState}, prefixOf st.1 acc.1 → SWF g acc →
        SWF g (l.foldl (fun acc i =>
          (after_dot g (st.1.getD i ∅)).foldl (canonical_step g st i) acc) acc)
  | [], _, _, _, h => h
  | i :: l, hl, acc, hpre, h => by
    rw [List.foldl_cons]
    exact canonical_range_SWF g st hst l
      (fun i' hi' => hl i' (List.mem_cons_of_mem _ hi'))
      (prefixOf_trans hpre (canonical_foldl_pref g st i _ acc))
      (canonical_foldl_SWF g st i (hl i (List.mem_cons_self _ _)) hst _ hpre h)

theorem canonical_pass_SWF (g : Grammar) {st : CState} (h : SWF g st) :
    SWF g (canonical_pass g st) := by
  rw [canonical_pass_eq]
  exact canonical_range_SWF g st h (List.range st.1.length)
    (fun i hi => List.mem_range.1 hi) (prefixOf_refl _) h

/-- Transition keys are duplicate-free. -/
def TN (st : CState) : Prop := (keysOf st.2).Nodup

theorem canonical_step_TN (g : Grammar) (st : CState) (i : Nat)
    {acc : CState} (h : TN acc) (X : GSym) :
    TN (canonical_step g st i acc X) := by
  simp only [canonical_step]
  have key : ∀ j : Nat, ((dinsert (i, X) j acc.2).map Prod.fst).Nodup := by
    intro j
    by_cases hk : (i, X) ∈ keysOf acc.2
    · rw [show ((dinsert (i, X) j acc.2).map Prod.fst) =
          keysOf (dinsert (i, X) j acc.2) from rfl, keysOf_dinsert_mem _ hk]
      exact h
    · rw [show ((dinsert (i, X) j acc.2).map Prod.fst) =
          keysOf (dinsert (i, X) j acc.2) from rfl, keysOf_dinsert_not_mem _ hk]
      exact nodup_append_single h hk
  rcases idxOf (goto_set g (st.1.getD i ∅) X) acc.1 with _ | j
  · exact key acc.1.length
  · exact key j

theorem canonical_foldl_TN (g : Grammar) (st : CState) (i : Nat) :
    ∀ (l : List GSym) {acc : CState}, TN acc →
      TN (l.foldl (canonical_step g st i) acc)
  | [], _, h => h
  | X :: l, acc, h => by
    rw [List.foldl_cons]
    exact canonical_foldl_TN g st i l (canonical_step_TN g st i h X)

theorem canonical_range_TN (g : Grammar) (st : CState) :
    ∀ (l : List Nat) {acc : CState}, TN acc →
      TN (l.foldl (fun acc i =>
        (after_dot g (st.1.getD i ∅)).foldl (canonical_step g st i) acc) acc)
  | [], _, h => h
  | i :: l, acc, h => by
    rw [List.foldl_cons]
    exact canonical_range_TN g st l (canonical_foldl_TN g st i _ h)

theorem canonical_pass_TN (g : Grammar) {st : CState} (h : TN st) :
    TN (canonical_pass g st) := by
  rw [canonical_pass_eq]
  exact canonical_range_TN g st (List.range st.1.length) h

def csize (st : CState) : Nat := st.1.length + st.2.length

theorem foldl_grow {α β : Type} (f : α → β → α) (P : α → Prop) (size : α → Nat) :
    ∀ (l : List β) (a : α),
      (∀ a' b, b ∈ l → P a' →
        P (f a' b) ∧ size a' ≤ size (f a' b) ∧
          (f a' b ≠ a' → size a' < size (f a' b))) →
      P a →
      P (l.foldl f a) ∧ size a ≤ size (l.foldl f a) ∧
        (l.foldl f a ≠ a → size a < size (l.foldl f a))
  | [], a, _, hP => ⟨hP, Nat.le_refl _, fun h => absurd rfl h⟩
  | b :: l, a, hstep, hP => by
    rw [List.foldl_cons]
    have h1 := hstep a b (List.mem_cons_self _ _) hP
    have h2 := foldl_grow f P size l (f a b)
      (fun a' b' hb' => hstep a' b' (List.mem_cons_of_mem _ hb')) h1.1
    refine ⟨h2.1, Nat.le_trans h1.2.1 h2.2.1, ?_⟩
    intro hne
    by_cases hab : f a b = a
    · rw [hab] at h2 ⊢
      exact h2.2.2 (by rw [hab] at hne; exact hne)
    · exact Nat.lt_of_lt_of_le (h1.2.2 hab) h2.2.1

theorem length_dinsert_ge {κ α : Type} [DecidableEq κ] (k : κ) (v : α)
    (m : List (κ × α)) : m.length ≤ (dinsert k v m).length := by
  by_cases hk : k ∈ keysOf m
  · rw [length_dinsert_mem v hk]
  · rw [length_dinsert_not_mem v hk]
    exact Nat.le_succ _

theorem prefixOf_getD {α : Type} {l l' : List α} (h : prefixOf l l') {i : Nat}
    (hi : i < l.length) (d : α) : l'.get? i = some (l.getD i d) := by
  refine prefixOf_get? h ?_
  rw [List.getD_eq_getElem?_getD, List.getElem?_eq_getElem hi,
    List.get?_eq_getElem?, List.getElem?_eq_getElem hi]
  rfl

theorem canonical_step_grow (g : Grammar) (st : CState) (i : Nat)
    (hi : i < st.1.length) {acc : CState} (h : HInv g st acc) (X : GSym) :
    csize acc ≤ csize (canonical_step g st i acc X) ∧
      (canonical_step g st i acc X ≠ acc →
        csize acc < csize (canonical_step g st i acc X)) := by
  obtain ⟨hpre, hnd, htr⟩ := h
  have hIi : acc.1.get? i = some (st.1.getD i ∅) := prefixOf_getD hpre hi ∅
  simp only [canonical_step]
  rcases hj : idxOf (goto_set g (st.1.getD i ∅) X) acc.1 with _ | j
  · show csize acc ≤ csize (acc.1 ++ [goto_set g (st.1.getD i ∅) X],
        dinsert (i, X) acc.1.length acc.2) ∧
      ((acc.1 ++ [goto_set g (st.1.getD i ∅) X],
        dinsert (i, X) acc.1.length acc.2) ≠ acc →
        csize acc < csize (acc.1 ++ [goto_set g (st.1.getD i ∅) X],
          dinsert (i, X) acc.1.length acc.2))
    constructor
    · simp only [csize, List.length_append, List.length_singleton]
      have := length_dinsert_ge (i, X) acc.1.length acc.2
      omega
    · intro _
      simp only [csize, List.length_append, List.length_singleton]
      have := length_dinsert_ge (i, X) acc.1.length acc.2
      omega
  · show csize acc ≤ csize (acc.1, dinsert (i, X) j acc.2) ∧
      ((acc.1, dinsert (i, X) j acc.2) ≠ acc →
        csize acc < csize (acc.1, dinsert (i, X) j acc.2))
    by_cases hk : alook (i, X) acc.2 = some j
    · rw [dinsert_eq_self hk]
      exact ⟨Nat.le_refl _, fun hne => absurd rfl hne⟩
    · rcases hk0 : alook (i, X) acc.2 with _ | j0
      · have hlen : (dinsert (i, X) j acc.2).length = acc.2.length + 1 :=
          length_dinsert_not_mem j ((alook_eq_none_iff _ _).1 hk0)
        constructor
        · simp only [csize]
          omega
        · intro _
          simp only [csize]
          omega
      · exfalso
        obtain ⟨I, hIi', hIj0⟩ := htr i X j0 hk0
        rw [hIi] at hIi'
        cases hIi'
        have hidx := nodup_idxOf hnd hIj0
        rw [hj] at hidx
        cases hidx
        exact hk hk0

theorem canonical_pass_grow (g : Grammar) {st : CState} (h : CInv g st) :
    csize st ≤ csize (canonical_pass g st) ∧
      (canonical_pass g st ≠ st → csize st < csize (canonical_pass g st)) := by
  have hfold := foldl_grow (fun acc i =>
      (after_dot g (st.1.getD i ∅)).foldl (canonical_step g st i) acc)
    (HInv g st) csize (List.range st.1.length) st ?_
    ⟨prefixOf_refl _, h.1, h.2⟩
  · rw [canonical_pass_eq]
    exact ⟨hfold.2.1, hfold.2.2⟩
  · intro acc i hi hH
    have hi' := List.mem_range.1 hi
    exact foldl_grow (canonical_step g st i) (HInv g st) csize
      (after_dot g (st.1.getD i ∅)) acc
      (fun a' X _ hH' => ⟨canonical_step_HInv g st i hi' hH' X,
        (canonical_step_grow g st i hi' hH' X).1,
        (canonical_step_grow g st i hi' hH' X).2⟩) hH

theorem states_length_bound (g : Grammar) {st : CState} (hnd : st.1.Nodup)
    (hswf : SWF g st) : st.1.length ≤ 2 ^ item_univ_card g := by
  have h1 : st.1.toFinset ⊆ ((items_list g).dedup.toFinset).powerset := by
    intro I hI
    rw [Finset.mem_powerset]
    intro it hit
    rw [List.mem_toFinset, List.mem_dedup]
    exact hswf I (List.mem_toFinset.1 hI) it hit
  calc st.1.length = st.1.toFinset.card := (List.toFinset_card_of_nodup hnd).symm
    _ ≤ ((items_list g).dedup.toFinset).powerset.card := Finset.card_le_card h1
    _ = 2 ^ (items_list g).dedup.toFinset.card := Finset.card_powerset _
    _ = 2 ^ item_univ_card g := by
        rw [item_univ_card, List.toFinset_card_of_nodup (List.nodup_dedup _)]

theorem rhs_card_le_symList (g : Grammar) :
    (rhsSyms g).toFinset.card ≤ (symList g).length := by
  have h1 : (rhsSyms g).toFinset ⊆ (symList g).toFinset := by
    intro x hx
    rw [List.mem_toFinset] at hx ⊢
    rw [symList, List.mem_dedup, List.mem_append, List.mem_append]
    exact Or.inl (Or.inr hx)
  exact Nat.le_trans (Finset.card_le_card h1) (List.toFinset_card_le _)

theorem trans_length_bound (g : Grammar) {st : CState}
    (htn : TN st) (htk : TKeys g st)
    (htr : ∀ i X j, alook (i, X) st.2 = some j →
      ∃ I, st.1.get? i = some I ∧ st.1.get? j = some (goto_set g I X)) :
    st.2.length ≤ st.1.length * (symList g).length := by
  have hsub : (keysOf st.2).toFinset ⊆
      (Finset.range st.1.length) ×ˢ (rhsSyms g).toFinset := by
    intro k hk
    rw [List.mem_toFinset] at hk
    obtain ⟨p, hp, rfl⟩ := List.mem_map.1 hk
    rcases Option.isSome_iff_exists.1 ((alook_isSome_iff p.1 st.2).2
      (List.mem_map_of_mem _ hp)) with ⟨j, hj⟩
    obtain ⟨I, hI, _⟩ := htr p.1.1 p.1.2 j hj
    rw [Finset.mem_product, Finset.mem_range, List.mem_toFinset]
    rcases List.get?_eq_some.1 hI with ⟨hlt, _⟩
    exact ⟨hlt, htk p hp⟩
  calc st.2.length = (keysOf st.2).length := (keysOf_length st.2).symm
    _ = (keysOf st.2).toFinset.card := (List.toFinset_card_of_nodup htn).symm
    _ ≤ ((Finset.range st.1.length) ×ˢ (rhsSyms g).toFinset).card :=
        Finset.card_le_card hsub
    _ = st.1.length * (rhsSyms g).toFinset.card := by
        rw [Finset.card_product, Finset.card_range]
    _ ≤ st.1.length * (symList g).length :=
        Nat.mul_le_mul_left _ (rhs_card_le_symList g)

/-- The full invariant of the canonical construction. -/
def PFull (g : Grammar) (st : CState) : Prop :=
  CInv g st ∧ TKeys g st ∧ SWF g st ∧ TN st

theorem canonical_pass_PFull (g : Grammar) {st : CState} (h : PFull g st) :
    PFull g (canonical_pass g st) := by
  obtain ⟨h1, h2, h3, h4⟩ := h
  refine ⟨canonical_pass_CInv g h1, ?_, canonical_pass_SWF g h3,
    canonical_pass_TN g h4⟩
  rw [canonical_pass_eq]
  exact canonical_range_TKeys g st (List.range st.1.length) h2

theorem csize_bound (g : Grammar) {st : CState} (h : PFull g st) :
    csize st ≤ 2 ^ item_univ_card g * ((symList g).length + 1) := by
  have hs := states_length_bound g h.1.1 h.2.2.1
  have ht := trans_length_bound g h.2.2.2 h.2.1 h.1.2
  have ht2 : st.2.length ≤ 2 ^ item_univ_card g * (symList g).length :=
    Nat.le_trans ht (Nat.mul_le_mul_right _ hs)
  simp only [csize, Nat.mul_add, Nat.mul_one]
  omega

theorem canonical_fix (g : Grammar) (start : GSym)
    (hinit : ((start, (alookD g start []).headD [], 0) : Item) ∈ items_list g) :
    canonical_pass g (calculate_canonical_lr0 g start) =
      calculate_canonical_lr0 g start := by
  refine iterFuel_fix (canonical_pass g) csize
    (2 ^ item_univ_card g * ((symList g).length + 1)) (PFull g)
    (fun st h => canonical_pass_PFull g h)
    (fun st h hne => (canonical_pass_grow g h.1).2 hne)
    (fun st h => csize_bound g (canonical_pass_PFull g h))
    (canonFuel g) (init_canon g start) ?_ ?_
  · refine ⟨⟨List.nodup_singleton _, fun i X j hj => by simp [init_canon, alook] at hj⟩,
      fun p hp => by simp [init_canon] at hp, ?_, List.nodup_nil⟩
    intro I hI it hit
    rw [init_canon, List.mem_singleton] at hI
    subst hI
    refine closure_wf g _ ?_ it hit
    intro it' hit'
    rw [Finset.mem_singleton] at hit'
    subst hit'
    exact hinit
  · simp only [canonFuel]
    omega

theorem canonical_step_keys_sub (g : Grammar) (st : CState) (i : Nat)
    (acc : CState) (X : GSym) :
    keysOf acc.2 ⊆ keysOf (canonical_step g st i acc X).2 := by
  simp only [canonical_step]
  rcases idxOf (goto_set g (st.1.getD i ∅) X) acc.1 with _ | j <;>
    exact keysOf_dinsert_sub _ _ _

theorem canonical_step_key_mem (g : Grammar) (st : CState) (i : Nat)
    (acc : CState) (X : GSym) :
    (i, X) ∈ keysOf (canonical_step g st i acc X).2 := by
  simp only [canonical_step]
  rcases idxOf (goto_set g (st.1.getD i ∅) X) acc.1 with _ | j <;>
    exact mem_keysOf_dinsert _ _ _

theorem canonical_foldl_keys_sub (g : Grammar) (st : CState) (i : Nat) :
    ∀ (l : List GSym) (acc : CState),
      keysOf acc.2 ⊆ keysOf ((l.foldl (canonical_step g st i) acc)).2
  | [], _ => fun _ h => h
  | X :: l, acc => by
    rw [List.foldl_cons]
    exact fun k hk => canonical_foldl_keys_sub g st i l _
      (canonical_step_keys_sub g st i acc X hk)

theorem canonical_foldl_key_mem (g : Grammar) (st : CState) (i : Nat) :
    ∀ (l : List GSym) (acc : CState) {X : GSym}, X ∈ l →
      (i, X) ∈ keysOf ((l.foldl (canonical_step g st i) acc)).2
  | [], _, X, h => absurd h (List.not_mem_nil X)
  | X' :: l, acc, X, h => by
    rw [List.foldl_cons]
    rcases List.mem_cons.1 h with rfl | h
    · exact canonical_foldl_keys_sub g st i l _
        (canonical_step_key_mem g st i acc X)
    · exact canonical_foldl_key_mem g st i l _ h

theorem canonical_range_keys_sub (g : Grammar) (st : CState) :
    ∀ (l : List Nat) (acc : CState),
      keysOf acc.2 ⊆ keysOf ((l.foldl (fun acc i =>
        (after_dot g (st.1.getD i ∅)).foldl (canonical_step g st i) acc) acc)).2
  | [], _ => fun _ h => h
  | i :: l, acc => by
    rw [List.foldl_cons]
    exact fun k hk => canonical_range_keys_sub g st l _
      (canonical_foldl_keys_sub g st i _ acc hk)

theorem canonical_range_key_mem (g : Grammar) (st : CState) :
    ∀ (l : List Nat) (acc : CState) {i : Nat}, i ∈ l →
      ∀ {X : GSym}, X ∈ after_dot g (st.1.getD i ∅) →
      (i, X) ∈ keysOf ((l.foldl (fun acc i =>
        (after_dot g (st.1.getD i ∅)).foldl (canonical_step g st i) acc) acc)).2
  | [], _, i, h, _, _ => absurd h (List.not_mem_nil i)
  | i' :: l, acc, i, h, X, hX => by
    rw [List.foldl_cons]
    rcases List.mem_cons.1 h with rfl | h
    · exact canonical_range_keys_sub g st l _
        (canonical_foldl_key_mem g st i _ acc hX)
    · exact canonical_range_key_mem g st l _ h hX

theorem canonical_tcomplete (g : Grammar) (start : GSym)
    (hinit : ((start, (alookD g start []).headD [], 0) : Item) ∈ items_list g) :
    ∀ t I, (calculate_canonical_lr0 g start).1.get? t = some I →
      ∀ X ∈ after_dot g I,
        ∃ j, alook (t, X) (calculate_canonical_lr0 g start).2 = some j := by
  intro t I hI X hX
  set CC := calculate_canonical_lr0 g start with hCC
  have ht : t < CC.1.length := by
    rcases List.get?_eq_some.1 hI with ⟨hlt, _⟩
    exact hlt
  have hgetD : CC.1.getD t ∅ = I := by
    rw [List.getD_eq_getElem?_getD, ← List.get?_eq_getElem?, hI]
    rfl
  have hkey : (t, X) ∈ keysOf (canonical_pass g CC).2 := by
    rw [canonical_pass_eq]
    exact canonical_range_key_mem g CC (List.range CC.1.length) CC
      (List.mem_range.2 ht) (by rw [hgetD]; exact hX)
  rw [canonical_fix g start hinit] at hkey
  exact Option.isSome_iff_exists.1 ((alook_isSome_iff _ _).2 hkey)

/-! ### `construct_slr_table`: provenance of every table entry -/

theorem tblIns_length (i : Nat) (a : GSym) (act : SAct) (t : SLRTable) :
    (tblIns i a act t).length = t.length :=
  List.length_set t i _

theorem tblIns_getD_self {t : SLRTable} {i : Nat} (h : i < t.length)
    (a : GSym) (act : SAct) :
    (tblIns i a act t).getD i [] = dinsert a act (t.getD i []) := by
  rw [tblIns, List.getD_eq_getElem?_getD, List.getElem?_set_eq_of_lt _ h]
  rfl

theorem tblIns_getD_ne {t : SLRTable} {i i' : Nat} (h : i ≠ i')
    (a : GSym) (act : SAct) :
    (tblIns i a act t).getD i' [] = t.getD i' [] := by
  rw [tblIns, List.getD_eq_getElem?_getD, List.getElem?_set_ne h,
    List.getD_eq_getElem?_getD]

theorem getD_rows_get? {t : SLRTable} {i : Nat} {row : List (GSym × SAct)}
    (h : t.get? i = some row) : t.getD i [] = row := by
  rw [List.getD_eq_getElem?_getD, ← List.get?_eq_getElem?, h]
  rfl

/-- Table-entry provenance: shift entries record a genuine transition of the
automaton, reduce entries record a genuine completed item of their state with
a non-start head and a key that is no nonterminal, accept entries sit at `$`. -/
def Prov (g : Grammar) (trans : List ((Nat × GSym) × Nat))
    (states : List (Finset Item)) (start : GSym) (tbl : SLRTable) : Prop :=
  ∀ i row, tbl.get? i = some row → ∀ q ∈ row,
    (∀ j, q.2 = SAct.shift j → alook (i, q.1) trans = some j) ∧
    (∀ r, q.2 = SAct.reduce r → q.1 ∉ keysOf g ∧
      ∃ A β, (prodList g).get? r = some (A, β) ∧
        (A, β, β.length) ∈ states.getD i ∅ ∧ A ≠ start) ∧
    (q.2 = SAct.accept → q.1 = "$")

theorem Prov_tblIns {g : Grammar} {trans : List ((Nat × GSym) × Nat)}
    {states : List (Finset Item)} {start : GSym} {tbl : SLRTable}
    (h : Prov g trans states start tbl) {i : Nat} {a : GSym} {act : SAct}
    (hact :
      (∀ j, act = SAct.shift j → alook (i, a) trans = some j) ∧
      (∀ r, act = SAct.reduce r → a ∉ keysOf g ∧
        ∃ A β, (prodList g).get? r = some (A, β) ∧
          (A, β, β.length) ∈ states.getD i ∅ ∧ A ≠ start) ∧
      (act = SAct.accept → a = "$")) :
    Prov g trans states start (tblIns i a act tbl) := by
  intro i' row' hrow' q hq
  rw [tblIns] at hrow'
  by_cases hii : i = i'
  · subst hii
    by_cases hlen : i < tbl.length
    · rw [List.get?_eq_getElem?, List.getElem?_set_eq_of_lt _ hlen] at hrow'
      cases hrow'
      rcases dinsert_mem hq with hq | rfl
      · obtain ⟨row0, hrow0, hq0⟩ := getD_row_mem hq
        obtain ⟨i0, hi0⟩ := List.get_of_mem hrow0
        -- recover the row index: use getD directly instead
        rcases hg : tbl.get? i with _ | row1
        · rw [List.getD_eq_getElem?_getD, ← List.get?_eq_getElem?, hg] at hq
          simp at hq
        · rw [getD_rows_get? hg] at hq
          exact h i row1 hg q hq
      · exact hact
    · rw [List.set_eq_of_length_le (Nat.le_of_not_lt hlen)] at hrow'
      exact h i row' hrow' q hq
  · rw [List.get?_eq_getElem?, List.getElem?_set_ne hii,
      ← List.get?_eq_getElem?] at hrow'
    exact h i' row' hrow' q hq

theorem Prov_reduce_fold {g : Grammar} {trans : List ((Nat × GSym) × Nat)}
    {states : List (Finset Item)} {start : GSym} (i : Nat) (r : Nat)
    {A : GSym} {β : List GSym}
    (hprod : (prodList g).get? r = some (A, β))
    (hitem : (A, β, β.length) ∈ states.getD i ∅) (hstart : A ≠ start) :
    ∀ (l : List GSym), (∀ a ∈ l, a ∉ keysOf g) → ∀ {t : SLRTable},
      Prov g trans states start t →
      Prov g trans states start
        (l.foldl (fun t a => tblIns i a (SAct.reduce r) t) t)
  | [], _, _, h => h
  | a :: l, hl, t, h => by
    rw [List.foldl_cons]
    refine Prov_reduce_fold i r hprod hitem hstart l
      (fun a' ha' => hl a' (List.mem_cons_of_mem _ ha')) ?_
    refine Prov_tblIns h ⟨fun j hj => SAct.noConfusion hj, ?_,
      fun hj => SAct.noConfusion hj⟩
    intro r' hr'
    cases hr'
    exact ⟨hl a (List.mem_cons_self _ _), A, β, hprod, hitem, hstart⟩

theorem slr_item_step_Prov {g : Grammar} {trans : List ((Nat × GSym) × Nat)}
    {states : List (Finset Item)} {follow : FMap} {start : GSym} {i : Nat}
    {t : SLRTable} {it : Item}
    (hfol : ∀ A s, alook A follow = some s → ∀ x ∈ s, x ∉ keysOf g)
    (hit : it ∈ state_items g (states.getD i ∅))
    (h : Prov g trans states start t) {t' : SLRTable}
    (hstep : slr_item_step g trans follow start i t it = some t') :
    Prov g trans states start t' := by
  have hitI : it ∈ states.getD i ∅ := by
    have := List.mem_filter.1 hit
    simpa using this.2
  have hitL : it ∈ items_list g := List.mem_dedup.1 (List.mem_filter.1 hit).1
  rcases hg : it.2.1[it.2.2]? with _ | a
  · by_cases hs : it.1 = start
    · simp only [slr_item_step, List.get?_eq_getElem?, hg, hs, if_pos,
        Option.some.injEq] at hstep
      subst hstep
      exact Prov_tblIns h ⟨fun j hj => SAct.noConfusion hj,
        fun r hr => SAct.noConfusion hr, fun _ => rfl⟩
    · rcases hr : idxOf (it.1, it.2.1) (prodList g) with _ | r
      · simp [slr_item_step, List.get?_eq_getElem?, hg, hs, hr] at hstep
      · simp only [slr_item_step, List.get?_eq_getElem?, hg, if_neg hs, hr,
          Option.some.injEq] at hstep
        subst hstep
        have hpos : it.2.2 = it.2.1.length := by
          have h1 := (items_list_mem hitL).2
          have h2 : it.2.1.length ≤ it.2.2 := by
            by_contra hc
            rw [List.getElem?_eq_getElem (Nat.lt_of_not_le hc)] at hg
            exact Option.noConfusion hg
          omega
        have hitem : (it.1, it.2.1, it.2.1.length) ∈ states.getD i ∅ := by
          rw [← hpos]
          exact hitI
        refine Prov_reduce_fold i r (idxOf_get? hr) hitem hs _ ?_ h
        intro a ha
        have ha2 := (List.mem_filter.1 ha).2
        simp only [decide_eq_true_eq] at ha2
        rcases hf : alook it.1 follow with _ | s
        · rw [alookD, hf] at ha2
          simp at ha2
        · rw [alookD, hf] at ha2
          exact hfol it.1 s hf a ha2
  · rcases ht : alook (i, a) trans with _ | j
    · simp only [slr_item_step, List.get?_eq_getElem?, hg, ht,
        Option.some.injEq] at hstep
      subst hstep
      exact h
    · simp only [slr_item_step, List.get?_eq_getElem?, hg, ht,
        Option.some.injEq] at hstep
      subst hstep
      refine Prov_tblIns h ⟨?_, fun r hr => SAct.noConfusion hr,
        fun hj => SAct.noConfusion hj⟩
      intro j' hj'
      cases hj'
      exact ht

theorem construct_decomp {g : Grammar} {states : List (Finset Item)}
    {trans : List ((Nat × GSym) × Nat)} {follow : FMap} {start : GSym}
    {tbl : SLRTable} {prods : List (GSym × List GSym)}
    (h : construct_slr_table g states trans follow start = some (tbl, prods)) :
    prods = prodList g ∧
    (List.range states.length).foldlM (fun t i =>
      (state_items g (states.getD i ∅)).foldlM
        (fun t it => slr_item_step g trans follow start i t it) t)
      ((List.replicate states.length []) : SLRTable) = some tbl := by
  unfold construct_slr_table at h
  rcases hf : (List.range states.length).foldlM (fun t i =>
      (state_items g (states.getD i ∅)).foldlM
        (fun t it => slr_item_step g trans follow start i t it) t)
      ((List.replicate states.length []) : SLRTable) with _ | t0
  · rw [hf] at h
    exact Option.noConfusion h
  · rw [hf] at h
    simp only [Option.map_some'] at h
    cases h
    exact ⟨rfl, rfl⟩

theorem construct_Prov {g : Grammar} {states : List (Finset Item)}
    {trans : List ((Nat × GSym) × Nat)} {follow : FMap} {start : GSym}
    {tbl : SLRTable} {prods : List (GSym × List GSym)}
    (hfol : ∀ A s, alook A follow = some s → ∀ x ∈ s, x ∉ keysOf g)
    (h : construct_slr_table g states trans follow start = some (tbl, prods)) :
    Prov g trans states start tbl := by
  obtain ⟨_, hf⟩ := construct_decomp h
  refine foldlM_option_inv _ (Prov g trans states start) _ _ ?_ ?_ _ hf
  · intro i row hrow q hq
    rw [List.get?_eq_getElem?] at hrow
    rcases hlt : decide (i < (List.replicate states.length
        ([] : List (GSym × SAct))).length) with _ | _
    · rw [List.getElem?_eq_none (Nat.le_of_not_lt (by simpa using hlt))] at hrow
      exact Option.noConfusion hrow
    · rw [List.getElem?_eq_getElem (by simpa using hlt)] at hrow
      cases hrow
      rw [List.getElem_replicate] at hq
      exact absurd hq (List.not_mem_nil q)
  · intro s' i _ hP t' ht'
    refine foldlM_option_inv _ (Prov g trans states start) _ _ hP ?_ _ ht'
    intro s'' it hitmem hP' t'' ht''
    exact slr_item_step_Prov hfol hitmem hP' ht''

theorem reduce_fold_length (i : Nat) (r : Nat) :
    ∀ (l : List GSym) (t : SLRTable),
      (l.foldl (fun t a => tblIns i a (SAct.reduce r) t) t).length = t.length
  | [], _ => rfl
  | a :: l, t => by
    rw [List.foldl_cons, reduce_fold_length i r l, tblIns_length]

theorem slr_item_step_length {g : Grammar} {trans : List ((Nat × GSym) × Nat)}
    {follow : FMap} {start : GSym} {i : Nat} {t : SLRTable} {it : Item}
    {t' : SLRTable}
    (hstep : slr_item_step g trans follow start i t it = some t') :
    t'.length = t.length := by
  rcases hg : it.2.1[it.2.2]? with _ | a
  · by_cases hs : it.1 = start
    · simp only [slr_item_step, List.get?_eq_getElem?, hg, hs, if_pos,
        Option.some.injEq] at hstep
      subst hstep
      exact tblIns_length _ _ _ _
    · rcases hr : idxOf (it.1, it.2.1) (prodList g) with _ | r
      · simp [slr_item_step, List.get?_eq_getElem?, hg, hs, hr] at hstep
      · simp only [slr_item_step, List.get?_eq_getElem?, hg, if_neg hs, hr,
          Option.some.injEq] at hstep
        subst hstep
        exact reduce_fold_length i r _ t
  · rcases ht : alook (i, a) trans with _ | j <;>
      simp only [slr_item_step, List.get?_eq_getElem?, hg, ht,
        Option.some.injEq] at hstep <;> subst hstep
    · rfl
    · exact tblIns_length _ _ _ _

theorem tblIns_rowkeys_mono {t : SLRTable} (i : Nat) (a : GSym) (act : SAct)
    (i' : Nat) {a' : GSym} (h : a' ∈ keysOf (t.getD i' [])) :
    a' ∈ keysOf ((tblIns i a act t).getD i' []) := by
  by_cases hii : i = i'
  · subst hii
    by_cases hlen : i < t.length
    · rw [tblIns_getD_self hlen]
      exact keysOf_dinsert_sub _ _ _ h
    · rw [tblIns, List.set_eq_of_length_le (Nat.le_of_not_lt hlen)]
      exact h
  · rw [tblIns_getD_ne hii]
    exact h

theorem reduce_fold_rowkeys_mono (i : Nat) (r : Nat) (i' : Nat) {a' : GSym} :
    ∀ (l : List GSym) {t : SLRTable}, a' ∈ keysOf (t.getD i' []) →
      a' ∈ keysOf ((l.foldl (fun t a => tblIns i a (SAct.reduce r) t) t).getD i' [])
  | [], _, h => h
  | a :: l, t, h => by
    rw [List.foldl_cons]
    exact reduce_fold_rowkeys_mono i r i' l (tblIns_rowkeys_mono i a _ i' h)

theorem slr_item_step_rowkeys_mono {g : Grammar}
    {trans : List ((Nat × GSym) × Nat)} {follow : FMap} {start : GSym}
    {i : Nat} {t : SLRTable} {it : Item} {t' : SLRTable}
    (hstep : slr_item_step g trans follow start i t it = some t')
    (i' : Nat) {a' : GSym} (h : a' ∈ keysOf (t.getD i' [])) :
    a' ∈ keysOf (t'.getD i' []) := by
  rcases hg : it.2.1[it.2.2]? with _ | a
  · by_cases hs : it.1 = start
    · simp only [slr_item_step, List.get?_eq_getElem?, hg, hs, if_pos,
        Option.some.injEq] at hstep
      subst hstep
      exact tblIns_rowkeys_mono i _ _ i' h
    · rcases hr : idxOf (it.1, it.2.1) (prodList g) with _ | r
      · simp [slr_item_step, List.get?_eq_getElem?, hg, hs, hr] at hstep
      · simp only [slr_item_step, List.get?_eq_getElem?, hg, if_neg hs, hr,
          Option.some.injEq] at hstep
        subst hstep
        exact reduce_fold_rowkeys_mono i r i' _ h
  · rcases ht : alook (i, a) trans with _ | j <;>
      simp only [slr_item_step, List.get?_eq_getElem?, hg, ht,
        Option.some.injEq] at hstep <;> subst hstep
    · exact h
    · exact tblIns_rowkeys_mono i _ _ i' h

theorem construct_tlen {g : Grammar} {states : List (Finset Item)}
    {trans : List ((Nat × GSym) × Nat)} {follow : FMap} {start : GSym}
    {tbl : SLRTable} {prods : List (GSym × List GSym)}
    (h : construct_slr_table g states trans follow start = some (tbl, prods)) :
    tbl.length = states.length := by
  obtain ⟨_, hf⟩ := construct_decomp h
  refine foldlM_option_inv _ (fun t => t.length = states.length) _ _
    (List.length_replicate _ _) ?_ _ hf
  intro s' i _ hP t' ht'
  refine foldlM_option_inv _ (fun t => t.length = states.length) _ _ hP ?_ _ ht'
  intro s'' it _ hP' t'' ht''
  rw [slr_item_step_length ht'']
  exact hP'

theorem foldlM_option_some {σ β : Type} (f : σ → β → Option σ) :
    ∀ (l1 l2 : List β) (s : σ) {t : σ},
      (l1 ++ l2).foldlM f s = some t →
      ∃ s1, l1.foldlM f s = some s1 ∧ l2.foldlM f s1 = some t := by
  intro l1 l2 s t h
  rw [List.foldlM_append] at h
  rcases h1 : l1.foldlM f s with _ | s1
  · rw [h1] at h
    exact Option.noConfusion h
  · rw [h1] at h
    simp only [Option.bind_eq_bind, Option.some_bind] at h
    exact ⟨s1, rfl, h⟩

theorem foldlM_option_cons {σ β : Type} (f : σ → β → Option σ) (b : β)
    (l : List β) (s : σ) {t : σ} (h : (b :: l).foldlM f s = some t) :
    ∃ s1, f s b = some s1 ∧ l.foldlM f s1 = some t := by
  simp only [List.foldlM, Option.bind_eq_bind] at h
  rcases h1 : f s b with _ | s1
  · rw [h1] at h
    exact Option.noConfusion h
  · rw [h1] at h
    simp only [Option.some_bind] at h
    exact ⟨s1, rfl, h⟩

theorem construct_keypresent {g : Grammar} {states : List (Finset Item)}
    {trans : List ((Nat × GSym) × Nat)} {follow : FMap} {start : GSym}
    {tbl : SLRTable} {prods : List (GSym × List GSym)}
    (h : construct_slr_table g states trans follow start = some (tbl, prods)) :
    ∀ i, i < states.length → ∀ it ∈ state_items g (states.getD i ∅),
      ∀ a, it.2.1.get? it.2.2 = some a → ∀ j, alook (i, a) trans = some j →
        ∃ act, alook a (tbl.getD i []) = some act := by
  intro i hi it hit a hg j htr
  obtain ⟨_, hf⟩ := construct_decomp h
  obtain ⟨l1, l2, hsplit⟩ := List.append_of_mem (List.mem_range.2 hi)
  rw [hsplit] at hf
  obtain ⟨t1, hf1, hf2⟩ := foldlM_option_some _ l1 _ _ hf
  obtain ⟨t2, hstate, hf3⟩ := foldlM_option_cons _ i l2 t1 hf2
  obtain ⟨m1, m2, hitems⟩ := List.append_of_mem hit
  rw [hitems] at hstate
  obtain ⟨ta, hm1, hm2⟩ := foldlM_option_some _ m1 _ _ hstate
  obtain ⟨tb, hstep, hm3⟩ := foldlM_option_cons _ it m2 ta hm2
  -- `ta` still has the length of the state list
  have hlen1 : t1.length = states.length := by
    refine foldlM_option_inv _ (fun t => t.length = states.length) _ _
      (List.length_replicate _ _) ?_ _ hf1
    intro s' i' _ hP t' ht'
    refine foldlM_option_inv _ (fun t => t.length = states.length) _ _ hP ?_ _ ht'
    intro s'' it' _ hP' t'' ht''
    rw [slr_item_step_length ht'']
    exact hP'
  have hlenA : ta.length = states.length := by
    refine foldlM_option_inv _ (fun t => t.length = states.length) _ _ hlen1 ?_ _ hm1
    intro s'' it' _ hP' t'' ht''
    rw [slr_item_step_length ht'']
    exact hP'
  -- the step at `it` inserts the shift entry for `a`
  have hb : tb = tblIns i a (SAct.shift j) ta := by
    have hg2 : it.2.1[it.2.2]? = some a := by
      rw [← List.get?_eq_getElem?]
      exact hg
    simp only [slr_item_step, List.get?_eq_getElem?, hg2, htr,
      Option.some.injEq] at hstep
    exact hstep.symm
  have hkey : a ∈ keysOf (tb.getD i []) := by
    rw [hb, tblIns_getD_self (hlenA ▸ hi)]
    exact mem_keysOf_dinsert _ _ _
  -- monotone to the end of the inner fold and the outer fold
  have hkey2 : a ∈ keysOf (t2.getD i []) := by
    refine foldlM_option_inv _ (fun t => a ∈ keysOf (t.getD i [])) _ _ hkey ?_ _ hm3
    intro s'' it' _ hP' t'' ht''
    exact slr_item_step_rowkeys_mono ht'' i hP'
  have hkey3 : a ∈ keysOf (tbl.getD i []) := by
    refine foldlM_option_inv _ (fun t => a ∈ keysOf (t.getD i [])) _ _ hkey2 ?_ _ hf3
    intro s' i' _ hP t' ht'
    refine foldlM_option_inv _ (fun t => a ∈ keysOf (t.getD i [])) _ _ hP ?_ _ ht'
    intro s'' it' _ hP' t'' ht''
    exact slr_item_step_rowkeys_mono ht'' i hP'
  exact Option.isSome_iff_exists.1 ((alook_isSome_iff _ _).2 hkey3)

/-! ### FIRST / FOLLOW sets never contain nonterminals -/

theorem mupd_values {P : GSym → Prop} (k : GSym) {s : Finset GSym}
    (hs : ∀ x ∈ s, P x) :
    ∀ {f : FMap}, (∀ p ∈ f, ∀ x ∈ p.2, P x) →
      ∀ p ∈ mupd k s f, ∀ x ∈ p.2, P x
  | [], _, p, hp => by simp [mupd] at hp
  | q :: f, h, p, hp => by
    simp only [mupd] at hp
    rcases List.mem_cons.1 hp with rfl | hp
    · by_cases hq : q.1 = k
      · simp only [if_pos hq]
        intro x hx
        rcases Finset.mem_union.1 hx with hx | hx
        · exact h q (List.mem_cons_self _ _) x hx
        · exact hs x hx
      · simp only [if_neg hq]
        exact h q (List.mem_cons_self _ _)
    · exact mupd_values k hs (fun p' hp' => h p' (List.mem_cons_of_mem _ hp')) p hp

/-- Values of a FIRST table contain only `'e'` and non-nonterminals. -/
def NKfirst (g : Grammar) (f : FMap) : Prop :=
  ∀ p ∈ f, ∀ x ∈ p.2, x = "e" ∨ x ∉ keysOf g

theorem first_of_string_values {g : Grammar} {first : FMap}
    (hk : keysOf first = keysOf g) (h : NKfirst g first) :
    ∀ alpha : List GSym, ∀ x ∈ first_of_string alpha first,
      x = "e" ∨ x ∉ keysOf g
  | [], x, hx => by
    rw [first_of_string, Finset.mem_singleton] at hx
    exact Or.inl hx
  | X :: rest, x, hx => by
    rcases hX : alook X first with _ | fX
    · rw [show first_of_string (X :: rest) first = {X} from by
        simp [first_of_string, hX]] at hx
      rw [Finset.mem_singleton] at hx
      refine Or.inr ?_
      rw [hx, ← hk]
      exact (alook_eq_none_iff X first).1 hX
    · have hfX : ∀ y ∈ fX, y = "e" ∨ y ∉ keysOf g :=
        h (X, fX) (alook_mem hX)
      by_cases he : "e" ∈ fX
      · rw [show first_of_string (X :: rest) first =
            (fX \ {"e"}) ∪ first_of_string rest first from by
          simp [first_of_string, hX, he]] at hx
        rcases Finset.mem_union.1 hx with hx | hx
        · exact hfX x (Finset.mem_sdiff.1 hx).1
        · exact first_of_string_values hk h rest x hx
      · rw [show first_of_string (X :: rest) first = fX \ {"e"} from by
          simp [first_of_string, hX, he]] at hx
        exact hfX x (Finset.mem_sdiff.1 hx).1

theorem first_inner_NK (g : Grammar) (A : GSym) :
    ∀ (l : List (List GSym)) (f : FMap), keysOf f = keysOf g → NKfirst g f →
      keysOf (l.foldl (fun f prod =>
        if prod = ["e"] then mupd A {"e"} f
        else mupd A (first_of_string prod f) f) f) = keysOf g ∧
      NKfirst g (l.foldl (fun f prod =>
        if prod = ["e"] then mupd A {"e"} f
        else mupd A (first_of_string prod f) f) f)
  | [], _, hk, h => ⟨hk, h⟩
  | prod :: l, f, hk, h => by
    rw [List.foldl_cons]
    by_cases hp : prod = ["e"]
    · rw [if_pos hp]
      exact first_inner_NK g A l _ ((keysOf_mupd _ _ _).trans hk)
        (mupd_values A (fun x hx => Or.inl (Finset.mem_singleton.1 hx)) h)
    · rw [if_neg hp]
      exact first_inner_NK g A l _ ((keysOf_mupd _ _ _).trans hk)
        (mupd_values A (first_of_string_values hk h prod) h)

theorem first_outer_NK (g : Grammar) :
    ∀ (l : List (GSym × List (List GSym))) (f : FMap),
      keysOf f = keysOf g → NKfirst g f →
      keysOf (l.foldl (fun f Ap => Ap.2.foldl (fun f prod =>
        if prod = ["e"] then mupd Ap.1 {"e"} f
        else mupd Ap.1 (first_of_string prod f) f) f) f) = keysOf g ∧
      NKfirst g (l.foldl (fun f Ap => Ap.2.foldl (fun f prod =>
        if prod = ["e"] then mupd Ap.1 {"e"} f
        else mupd Ap.1 (first_of_string prod f) f) f) f)
  | [], _, hk, h => ⟨hk, h⟩
  | Ap :: l, f, hk, h => by
    rw [List.foldl_cons]
    have hin := first_inner_NK g Ap.1 Ap.2 f hk h
    exact first_outer_NK g l _ hin.1 hin.2

theorem calculate_first_sets_NK (g : Grammar) :
    keysOf (calculate_first_sets g) = keysOf g ∧
    NKfirst g (calculate_first_sets g) := by
  refine iterFuel_inv (first_pass g)
    (fun f => keysOf f = keysOf g ∧ NKfirst g f) ?_ (firstFuel g) (initFirst g) ?_
  · rintro f ⟨hk, h⟩
    exact first_outer_NK g g f hk h
  · constructor
    · simp [keysOf, initFirst, List.map_map, Function.comp]
    · intro p hp
      rw [initFirst, List.mem_map] at hp
      obtain ⟨Ap, _, rfl⟩ := hp
      intro x hx
      exact absurd hx (Finset.not_mem_empty x)

/-- Values of the FOLLOW table contain no nonterminal. -/
def NKfollow (g : Grammar) (f : FMap) : Prop :=
  ∀ p ∈ f, ∀ x ∈ p.2, x ∉ keysOf g

theorem alookD_values {g : Grammar} {f : FMap} (h : NKfollow g f) (k : GSym) :
    ∀ x ∈ alookD f k ∅, x ∉ keysOf g := by
  rcases hv : alook k f with _ | v
  · simp [alookD, hv]
  · intro x hx
    rw [alookD, hv] at hx
    exact h (k, v) (alook_mem hv) x hx

theorem follow_step_NK (g : Grammar) {first : FMap}
    (hkf : keysOf first = keysOf g) (hNKf : NKfirst g first)
    {f : FMap} (h : NKfollow g f) (o : GSym × GSym × List GSym) :
    NKfollow g (follow_step g first f o) := by
  simp only [follow_step]
  split
  · split
    · have hfb : ∀ x ∈ first_of_string o.2.2 first \ {"e"}, x ∉ keysOf g := by
        intro x hx
        rcases Finset.mem_sdiff.1 hx with ⟨hx1, hx2⟩
        rcases first_of_string_values hkf hNKf o.2.2 x hx1 with hx | hx
        · exact absurd (Finset.mem_singleton.2 hx) hx2
        · exact hx
      have h1 : NKfollow g (mupd o.2.1 (first_of_string o.2.2 first \ {"e"}) f) :=
        mupd_values o.2.1 hfb h
      split
      · exact mupd_values o.2.1 (alookD_values h1 o.1) h1
      · exact h1
    · exact mupd_values o.2.1 (alookD_values h o.1) h
  · exact h

theorem follow_foldl_NK (g : Grammar) {first : FMap}
    (hkf : keysOf first = keysOf g) (hNKf : NKfirst g first) :
    ∀ (l : List (GSym × GSym × List GSym)) {f : FMap}, NKfollow g f →
      NKfollow g (l.foldl (follow_step g first) f)
  | [], _, h => h
  | o :: l, f, h => by
    rw [List.foldl_cons]
    exact follow_foldl_NK g hkf hNKf l (follow_step_NK g hkf hNKf h o)

theorem calculate_follow_sets_NK (g : Grammar) (start : GSym)
    (hd : "$" ∉ keysOf g) :
    NKfollow g (calculate_follow_sets g (calculate_first_sets g) start) := by
  have hNK := calculate_first_sets_NK g
  refine iterFuel_inv (follow_pass g (calculate_first_sets g)) (NKfollow g)
    (fun f h => follow_foldl_NK g hNK.1 hNK.2 (occs g) h)
    (followFuel g (calculate_first_sets g)) (initFollow g start) ?_
  intro p hp
  rw [initFollow, List.mem_map] at hp
  obtain ⟨Ap, _, rfl⟩ := hp
  intro x hx
  by_cases hA : Ap.1 = start
  · rw [if_pos hA, Finset.mem_singleton] at hx
    subst hx
    exact hd
  · rw [if_neg hA] at hx
    exact absurd hx (Finset.not_mem_empty x)

/-! ### The machine invariant of `lr_run` -/

/-- The state stack (top first) spells a path of recorded transitions ending
at state 0. -/
def stkOK (trans : List ((Nat × GSym) × Nat)) : List Nat → Prop
  | [] => False
  | [s] => s = 0
  | s :: t :: r => (∃ X, alook (t, X) trans = some s) ∧ stkOK trans (t :: r)

theorem stkOK_head_lt {g : Grammar} {states : List (Finset Item)}
    {trans : List ((Nat × GSym) × Nat)}
    (tinv : ∀ i X j, alook (i, X) trans = some j →
      ∃ I, states.get? i = some I ∧ states.get? j = some (goto_set g I X))
    (hne : 0 < states.length) :
    ∀ {s : Nat} {rest : List Nat}, stkOK trans (s :: rest) →
      s < states.length := by
  intro s rest hOK
  cases rest with
  | nil =>
    have h0 : s = 0 := hOK
    rw [h0]
    exact hne
  | cons t r =>
    obtain ⟨⟨X, hedge⟩, _⟩ := hOK
    obtain ⟨I, _, hs⟩ := tinv t X s hedge
    rcases List.get?_eq_some.1 hs with ⟨hlt, _⟩
    exact hlt

theorem after_dot_intro {g : Grammar} {I : Finset Item} {it : Item} {X : GSym}
    (hit : it ∈ I) (hl : it ∈ items_list g)
    (hX : it.2.1.get? it.2.2 = some X) : X ∈ after_dot g I := by
  rw [after_dot, List.mem_dedup, List.mem_filterMap]
  exact ⟨it, List.mem_filter.2 ⟨List.mem_dedup.2 hl, by simpa using hit⟩, hX⟩

/-- Viable-prefix property: an item with `p` symbols before the dot in the
state on top of a well-formed stack can be traced back `p` stack entries to
a state containing the same item with the dot at the start. -/
theorem stack_item {g : Grammar} {start : GSym} {states : List (Finset Item)}
    {trans : List ((Nat × GSym) × Nat)}
    (tinv : ∀ i X j, alook (i, X) trans = some j →
      ∃ I, states.get? i = some I ∧ states.get? j = some (goto_set g I X))
    (state0 : states.get? 0 =
      some (calculate_closure g {(start, (alookD g start []).headD [], 0)})) :
    ∀ (p : Nat) (s : Nat) (rest : List Nat), stkOK trans (s :: rest) →
      ∀ I, states.get? s = some I → ∀ A β, (A, β, p) ∈ I →
      ∃ (t : Nat) (rest' : List Nat), (s :: rest).drop p = t :: rest' ∧
        stkOK trans (t :: rest') ∧
        ∃ I0, states.get? t = some I0 ∧ (A, β, 0) ∈ I0
  | 0, s, rest, hOK, I, hI, A, β, hin =>
    ⟨s, rest, rfl, hOK, I, hI, hin⟩
  | p + 1, s, rest, hOK, I, hI, A, β, hin => by
    cases rest with
    | nil =>
      have h0 : s = 0 := hOK
      subst h0
      rw [state0] at hI
      cases hI
      have := closure_pos g _ _ hin (Nat.le_add_left 1 p)
      rw [Finset.mem_singleton] at this
      have hp : p + 1 = 0 := congrArg (fun it : Item => it.2.2) this
      exact absurd hp (Nat.succ_ne_zero p)
    | cons t r =>
      obtain ⟨⟨X, hedge⟩, hOK'⟩ := hOK
      obtain ⟨It, hIt, hs⟩ := tinv t X s hedge
      rw [hI] at hs
      cases hs
      obtain ⟨it0, hit0, hXd, heq⟩ := goto_pos1 hin (Nat.le_add_left 1 p)
      have h1 : it0.1 = A := (congrArg (fun it : Item => it.1) heq).symm
      have h2 : it0.2.1 = β := (congrArg (fun it : Item => it.2.1) heq).symm
      have h3 : it0.2.2 = p := by
        have := congrArg (fun it : Item => it.2.2) heq
        simpa using this.symm
      have hit0' : (A, β, p) ∈ It := by
        rw [← h1, ← h2, ← h3]
        exact hit0
      have ih := stack_item tinv state0 p t r hOK' It hIt A β hit0'
      rw [List.drop_succ_cons]
      exact ih

/-- A state item with the dot at the start and a non-start head comes from a
closure expansion: some item of the same state has the head right after its
dot, and the head is a nonterminal. -/
theorem state_origin {g : Grammar} {start : GSym} {states : List (Finset Item)}
    {trans : List ((Nat × GSym) × Nat)}
    (tinv : ∀ i X j, alook (i, X) trans = some j →
      ∃ I, states.get? i = some I ∧ states.get? j = some (goto_set g I X))
    (state0 : states.get? 0 =
      some (calculate_closure g {(start, (alookD g start []).headD [], 0)}))
    {t : Nat} {rest' : List Nat} (hOK : stkOK trans (t :: rest'))
    {I0 : Finset Item} (hI0 : states.get? t = some I0)
    {A : GSym} {β : List GSym} (hin : (A, β, 0) ∈ I0) (hA : A ≠ start) :
    ∃ it' ∈ I0, it'.2.1.get? it'.2.2 = some A ∧
      ∃ alts, alook A g = some alts := by
  cases rest' with
  | nil =>
    have h0 : t = 0 := hOK
    subst h0
    rw [state0] at hI0
    cases hI0
    rcases closure_origin g _ _ hin with h | ⟨it', hit', alts, h1, h2, _, _⟩
    · rw [Finset.mem_singleton] at h
      exact absurd (congrArg (fun it : Item => it.1) h) hA
    · exact ⟨it', hit', h1, alts, h2⟩
  | cons t2 r =>
    obtain ⟨⟨X, hedge⟩, _⟩ := hOK
    obtain ⟨It2, _, hs⟩ := tinv t2 X t hedge
    rw [hI0] at hs
    cases hs
    rcases closure_origin g _ _ hin with h | ⟨it', hit', alts, h1, h2, _, _⟩
    · obtain ⟨it0, _, _, heq⟩ := moved_mem.1 h
      have := congrArg (fun it : Item => it.2.2) heq
      simp only at this
      exact absurd this (Nat.succ_ne_zero _).symm
    · exact ⟨it', hit', h1, alts, h2⟩

theorem inp_ip_lt {l : List GSym} {ip : Nat} {a : GSym}
    (h : (l ++ ["$"]).get? ip = some a) (ha : a ≠ "$") :
    ip + 1 < (l ++ ["$"]).length := by
  rcases Nat.lt_or_ge ip l.length with hlt | hge
  · simp only [List.length_append, List.length_singleton]
    omega
  · rw [List.get?_append_right hge] at h
    rcases hip : ip - l.length with _ | k
    · rw [hip] at h
      simp only [List.get?] at h
      cases h
      exact absurd rfl ha
    · rw [hip] at h
      simp at h

theorem get?_eq_getD {α : Type} {l : List α} {i : Nat} (h : i < l.length)
    (d : α) : l.get? i = some (l.getD i d) :=
  prefixOf_getD (prefixOf_refl l) h d

theorem lr_run_no_fail {g : Grammar} {start : GSym} {states : List (Finset Item)}
    {trans : List ((Nat × GSym) × Nat)} {tbl : SLRTable}
    {prods : List (GSym × List GSym)} {l : List GSym}
    (tinv : ∀ i X j, alook (i, X) trans = some j →
      ∃ I, states.get? i = some I ∧ states.get? j = some (goto_set g I X))
    (tkeys : ∀ p ∈ trans, p.1.2 ∈ rhsSyms g)
    (tcomplete : ∀ t I, states.get? t = some I →
      ∀ X ∈ after_dot g I, ∃ j, alook (t, X) trans = some j)
    (swf : ∀ I ∈ states, ∀ it ∈ I, it ∈ items_list g)
    (state0 : states.get? 0 =
      some (calculate_closure g {(start, (alookD g start []).headD [], 0)}))
    (tlen : tbl.length = states.length)
    (prov : Prov g trans states start tbl)
    (keyp : ∀ i, i < states.length → ∀ it ∈ state_items g (states.getD i ∅),
      ∀ a, it.2.1.get? it.2.2 = some a → ∀ j, alook (i, a) trans = some j →
        ∃ act, alook a (tbl.getD i []) = some act)
    (prodsEq : prods = prodList g)
    (hd : "$" ∉ keysOf g) (hdr : "$" ∉ rhsSyms g)
    (hne : 0 < states.length) :
    ∀ (n : Nat) (stack : List Nat) (ip : Nat), stkOK trans stack →
      ip < (l ++ ["$"]).length →
      lr_run tbl prods (l ++ ["$"]) n stack ip ≠ PRes.fail
  | 0, stack, ip, _, _ => by simp [lr_run]
  | n + 1, [], ip, hOK, _ => absurd hOK (by simp [stkOK])
  | n + 1, s :: rest, ip, hOK, hip => by
    have hs : s < states.length := stkOK_head_lt tinv hne hOK
    have hrow : tbl.get? s = some (tbl.getD s []) := get?_eq_getD (tlen ▸ hs) []
    rcases hinp : (l ++ ["$"]).get? ip with _ | a
    · exact absurd (List.get?_eq_none.1 hinp) (Nat.not_le.2 hip)
    rcases hlook : alook a (tbl.getD s []) with _ | act
    · have heq : lr_run tbl prods (l ++ ["$"]) (n + 1) (s :: rest) ip = .rej := by
        simp only [lr_run, List.headD_cons, hrow, hinp, hlook]
      rw [heq]
      exact fun h => PRes.noConfusion h
    rcases act with j | r | _
    · -- shift
      have hq := prov s (tbl.getD s []) hrow (a, .shift j) (alook_mem hlook)
      have hedge := hq.1 j rfl
      have ha : a ∈ rhsSyms g := tkeys _ (alook_mem hedge)
      have ha' : a ≠ "$" := fun hc => hdr (hc ▸ ha)
      have heq : lr_run tbl prods (l ++ ["$"]) (n + 1) (s :: rest) ip =
          lr_run tbl prods (l ++ ["$"]) n (j :: s :: rest) (ip + 1) := by
        simp only [lr_run, List.headD_cons, hrow, hinp, hlook]
      rw [heq]
      exact lr_run_no_fail tinv tkeys tcomplete swf state0 tlen prov keyp
        prodsEq hd hdr hne n (j :: s :: rest) (ip + 1)
        ⟨⟨a, hedge⟩, hOK⟩ (inp_ip_lt hinp ha')
    · -- reduce
      have hq := prov s (tbl.getD s []) hrow (a, .reduce r) (alook_mem hlook)
      obtain ⟨hnk, A, β, hpr, hitem, hAs⟩ := hq.2.1 r rfl
      have hpr' : prods.get? r = some (A, β) := by rw [prodsEq]; exact hpr
      have hIs : states.get? s = some (states.getD s ∅) := get?_eq_getD hs ∅
      obtain ⟨t, rest', hdrop, hOKt, I0, hI0, hin0⟩ :=
        stack_item tinv state0 β.length s rest hOK _ hIs A β hitem
      obtain ⟨it', hit', hXA, alts, halts⟩ :=
        state_origin tinv state0 hOKt hI0 hin0 hAs
      have hAkey : A ∈ keysOf g :=
        (alook_isSome_iff A g).1 (by rw [halts]; rfl)
      have hitl : it' ∈ items_list g := swf I0 (List.get?_mem hI0) it' hit'
      obtain ⟨j2, hj2⟩ := tcomplete t I0 hI0 A (after_dot_intro hit' hitl hXA)
      have ht : t < states.length := stkOK_head_lt tinv hne hOKt
      have hI0D : states.getD t ∅ = I0 := by
        have := get?_eq_getD ht (∅ : Finset Item)
        rw [hI0] at this
        exact (Option.some.injEq _ _ ▸ this).symm
      have hitS : it' ∈ state_items g (states.getD t ∅) := by
        rw [hI0D]
        exact List.mem_filter.2 ⟨List.mem_dedup.2 hitl, by simpa using hit'⟩
      obtain ⟨act2, hact2⟩ := keyp t ht it' hitS A hXA j2 hj2
      have htrow : tbl.get? t = some (tbl.getD t []) := get?_eq_getD (tlen ▸ ht) []
      have hq2 := prov t (tbl.getD t []) htrow (A, act2) (alook_mem hact2)
      rcases act2 with j3 | r2 | _
      · have hedge3 := hq2.1 j3 rfl
        have heq : lr_run tbl prods (l ++ ["$"]) (n + 1) (s :: rest) ip =
            lr_run tbl prods (l ++ ["$"]) n (j3 :: t :: rest') ip := by
          simp only [lr_run, List.headD_cons, hrow, hinp, hlook, hpr', hdrop,
            htrow, hact2]
        rw [heq]
        exact lr_run_no_fail tinv tkeys tcomplete swf state0 tlen prov keyp
          prodsEq hd hdr hne n (j3 :: t :: rest') ip ⟨⟨A, hedge3⟩, hOKt⟩ hip
      · exact absurd hAkey (hq2.2.1 r2 rfl).1
      · exact absurd (hq2.2.2 rfl ▸ hAkey) hd
    · -- accept
      have heq : lr_run tbl prods (l ++ ["$"]) (n + 1) (s :: rest) ip = .acc := by
        simp only [lr_run, List.headD_cons, hrow, hinp, hlook]
      rw [heq]
      exact fun h => PRes.noConfusion h

theorem canonical_PFull (g : Grammar) (start : GSym)
    (hinit : ((start, (alookD g start []).headD [], 0) : Item) ∈ items_list g) :
    PFull g (calculate_canonical_lr0 g start) := by
  refine iterFuel_inv (canonical_pass g) (PFull g)
    (fun st h => canonical_pass_PFull g h) (canonFuel g) (init_canon g start) ?_
  refine ⟨⟨List.nodup_singleton _,
    fun i X j hj => by simp [init_canon, alook] at hj⟩,
    fun p hp => by simp [init_canon] at hp, ?_, List.nodup_nil⟩
  intro I hI it hit
  rw [init_canon, List.mem_singleton] at hI
  subst hI
  refine closure_wf g _ ?_ it hit
  intro it' hit'
  rw [Finset.mem_singleton] at hit'
  subst hit'
  exact hinit

/-- Claim C10 (amended): for every grammar in which `$` is neither a
nonterminal nor a right-hand-side symbol, whenever the pipeline produces an
SLR table and production list, `lr_parse` on any input string and any fuel
never reaches the failure outcome that models a Python exception: every reduce
pops fewer states than the stack holds, every goto lookup after popping
succeeds, and the entry found there is a state number (a shift), never an
accept marker whose indexing would raise. -/
theorem C10_amended (g : Grammar)
    (hd : "$" ∉ keysOf (augGrammar g))
    (hdr : "$" ∉ rhsSyms (augGrammar g))
    {tbl : SLRTable} {prods : List (GSym × List GSym)}
    (hslr : (classify g).slr = some (tbl, prods)) :
    ∀ (s : String) (n : Nat), lr_parse s tbl prods n ≠ PRes.fail := by
  intro s n
  by_cases hp : startSym g ∈ productive_nts g
  · have hslr2 : construct_slr_table (augGrammar g)
        (calculate_canonical_lr0 (augGrammar g) (augName g)).1
        (calculate_canonical_lr0 (augGrammar g) (augName g)).2
        (calculate_follow_sets (augGrammar g)
          (calculate_first_sets (augGrammar g)) (augName g))
        (augName g) = some (tbl, prods) := by
      rw [← hslr]
      unfold classify
      rw [if_pos hp]
    have halook : alook (augName g) (augGrammar g) = some [[startSym g]] := by
      simp [alook, augGrammar]
    have hinit : ((augName g,
        (alookD (augGrammar g) (augName g) []).headD [], 0) : Item)
        ∈ items_list (augGrammar g) := by
      have h1 : alookD (augGrammar g) (augName g) [] = [[startSym g]] := by
        rw [alookD, halook]
        rfl
      rw [h1]
      exact items_list_intro (List.mem_cons_self _ _)
        (List.mem_singleton.2 rfl) (by simp)
    have hPF := canonical_PFull (augGrammar g) (augName g) hinit
    have hNK := calculate_follow_sets_NK (augGrammar g) (augName g) hd
    have hfol : ∀ A s', alook A (calculate_follow_sets (augGrammar g)
        (calculate_first_sets (augGrammar g)) (augName g)) = some s' →
        ∀ x ∈ s', x ∉ keysOf (augGrammar g) :=
      fun A s' hAs x hx => hNK (A, s') (alook_mem hAs) x hx
    have hne : 0 < (calculate_canonical_lr0 (augGrammar g) (augName g)).1.length := by
      obtain ⟨tl, htl⟩ := canonical_states_pref (augGrammar g) (augName g)
      rw [← htl]
      simp [init_canon]
    have state0 : (calculate_canonical_lr0 (augGrammar g) (augName g)).1.get? 0 =
        some (calculate_closure (augGrammar g)
          {(augName g, (alookD (augGrammar g) (augName g) []).headD [], 0)}) :=
      prefixOf_get? (canonical_states_pref (augGrammar g) (augName g)) rfl
    show lr_run tbl prods (strSyms s ++ ["$"]) n [0] 0 ≠ PRes.fail
    exact lr_run_no_fail hPF.1.2 hPF.2.1
      (canonical_tcomplete (augGrammar g) (augName g) hinit) hPF.2.2.1
      state0 (construct_tlen hslr2) (construct_Prov hfol hslr2)
      (construct_keypresent hslr2) (construct_decomp hslr2).1 hd hdr hne
      n [0] 0 rfl (by simp)
  · rw [classify] at hslr
    rw [if_neg hp] at hslr
    exact Option.noConfusion hslr

theorem C10_witness :
    lr_parse "ab" ((classify gC5).slr.getD ([], [])).1
      ((classify gC5).slr.getD ([], [])).2 20 ≠ PRes.fail :=
  C10_amended gC5 (by decide) (by decide) (by decide) "ab" 20
